import Mathlib

/-!
# Bitswap block exchange: wantlist and exchange facade

A shallow embedding of

* `exchange/bitswap/wantlist/wantlist.go` (the `Wantlist` map of entries),
* `exchange/bitswap/bitswap.go` (the `Bitswap` facade: `GetBlock`, `GetBlocks`,
  `HasBlock`, `tryPutBlock`, `ReceiveMessage`, `updateReceiveCounters`),
* `blocks/blocks.go` (`NewBlock`, `NewBlockWithHash`),
* `routing/dht/providers.go` (`providerSet`, the cases of `ProviderManager.run`),
* `routing/supernode/proxy/standard.go` (`SendMessage`),
* `core/commands/bootstrap.go` (`bootstrapAdd`),
* `path/path.go` (`ParsePath`, `ParseKeyToPath`), and
* `routing/kbucket/sorting.go` (`SortClosestPeers`),

each followed by the properties established for it.

Conventions of the embedding:

* Go byte strings (`[]byte`, `string`, `key.Key`, `mh.Multihash`) are lists of bytes.
* A Go `map[K]V` is an association list without repeated keys (`GoMap`).
* Go `error` values are their messages; `nil` is `none`.
* Calls into collaborators that are interfaces or live in other packages
  (blockstore, notification hub, want manager, decision engine, the two work
  queues, `time.Sleep`) are recorded, in program order, in an event trace carried
  by the state of the exchange.
* Which case of a blocking `select` proceeds is decided by the Go runtime and by
  the other goroutines; it is an input of the embedded function (`Select`).
-/

/-! ## Byte strings, keys, blocks -/

/-- Go byte strings. -/
abbrev Bytes := List UInt8

/-- The Go type `key.Key` is a string type; `key.Key(b)` keeps the bytes of `b`. -/
abbrev Key := Bytes

/-- Go `error`: the message of the error value. -/
abbrev Error := String

/-- Struct `Block` of blocks.go: a multihash and the data. -/
structure Block where
  Multihash : Bytes
  Data : Bytes
  deriving DecidableEq, Repr

/-- Method `Block.Key` of blocks.go: `key.Key(b.Multihash)`. -/
def Block.Key (b : Block) : Key := b.Multihash

/-! ## Go maps -/

/-- A Go `map[κ]ν`: the stored pairs, no key twice. -/
structure GoMap (κ : Type) (ν : Type) where
  entries : List (κ × ν)
  nodup : (entries.map Prod.fst).Nodup

namespace GoMap

variable {κ ν : Type} [DecidableEq κ]

/-- The map built by `make(map[κ]ν)`. -/
def empty : GoMap κ ν := ⟨[], List.nodup_nil⟩

/-- Index expression `v, ok := m[k]` as an option. -/
def get? (m : GoMap κ ν) (k : κ) : Option ν :=
  (m.entries.find? (fun p => decide (p.1 = k))).map Prod.snd

/-- Builtin `len(m)`. -/
def len (m : GoMap κ ν) : Nat := m.entries.length

/-- Replace the value stored under `k` in a list of pairs. -/
def setList (k : κ) (v : ν) : List (κ × ν) → List (κ × ν)
  | [] => [(k, v)]
  | p :: ps => if p.1 = k then (k, v) :: ps else p :: setList k v ps

theorem mem_keys_setList (k : κ) (v : ν) (l : List (κ × ν)) (x : κ) :
    x ∈ (setList k v l).map Prod.fst ↔ x = k ∨ x ∈ l.map Prod.fst := by
  induction l with
  | nil => simp [setList]
  | cons p ps ih =>
    by_cases h : p.1 = k
    · simp [setList, h]
    · simp only [setList, h, if_false, List.map_cons, List.mem_cons, ih]
      tauto

theorem nodup_setList (k : κ) (v : ν) (l : List (κ × ν))
    (h : (l.map Prod.fst).Nodup) : ((setList k v l).map Prod.fst).Nodup := by
  induction l with
  | nil => simp [setList]
  | cons p ps ih =>
    rw [List.map_cons, List.nodup_cons] at h
    by_cases hk : p.1 = k
    · simp only [setList, hk, if_true, List.map_cons, List.nodup_cons]
      exact ⟨hk ▸ h.1, h.2⟩
    · simp only [setList, hk, if_false, List.map_cons, List.nodup_cons]
      refine ⟨?_, ih h.2⟩
      rw [mem_keys_setList]
      rintro (h1 | h1)
      · exact hk h1
      · exact h.1 h1

/-- Assignment `m[k] = v`. -/
def set (m : GoMap κ ν) (k : κ) (v : ν) : GoMap κ ν :=
  ⟨setList k v m.entries, nodup_setList k v m.entries m.nodup⟩

/-- Builtin `delete(m, k)`. -/
def delete (m : GoMap κ ν) (k : κ) : GoMap κ ν :=
  ⟨m.entries.filter (fun p => !decide (p.1 = k)),
    (m.nodup.sublist ((List.filter_sublist m.entries).map Prod.fst))⟩

end GoMap

/-! ## wantlist.go -/

/-- Struct `Entry` of wantlist.go. -/
structure Entry where
  Key : Key
  Priority : Int
  deriving DecidableEq, Repr

/-- The zero value of `Entry`, which a failed map lookup yields. -/
def Entry.zero : Entry := ⟨[], 0⟩

/-- Struct `Wantlist` of wantlist.go (not threadsafe): `set map[key.Key]Entry`. -/
structure Wantlist where
  set : GoMap Key Entry

namespace Wantlist

/-- Function `New` of wantlist.go. -/
def New : Wantlist := ⟨GoMap.empty⟩

/-- Method `Wantlist.Len`: `len(w.set)`. -/
def Len (w : Wantlist) : Nat := w.set.len

/-- Method `Wantlist.Add`: returns at once when `k` is present, else stores
`Entry{Key: k, Priority: priority}` under `k`. -/
def Add (w : Wantlist) (k : Key) (priority : Int) : Wantlist :=
  match w.set.get? k with
  | some _ => w
  | none => ⟨w.set.set k ⟨k, priority⟩⟩

/-- Method `Wantlist.Remove`: `delete(w.set, k)`. -/
def Remove (w : Wantlist) (k : Key) : Wantlist := ⟨w.set.delete k⟩

/-- Method `Wantlist.Contains`: `e, ok := w.set[k]; return e, ok`. -/
def Contains (w : Wantlist) (k : Key) : Entry × Bool :=
  match w.set.get? k with
  | some e => (e, true)
  | none => (Entry.zero, false)

end Wantlist

/-! ## Facts about Go maps -/

namespace GoMap

variable {κ ν : Type} [DecidableEq κ]

theorem find?_setList_self (k : κ) (v : ν) (l : List (κ × ν)) :
    (setList k v l).find? (fun p => decide (p.1 = k)) = some (k, v) := by
  induction l with
  | nil => simp [setList]
  | cons p ps ih =>
    by_cases h : p.1 = k
    · simp [setList, h]
    · simp [setList, h, List.find?_cons, ih]

theorem find?_setList_ne (k k' : κ) (v : ν) (l : List (κ × ν)) (hne : k' ≠ k) :
    (setList k v l).find? (fun p => decide (p.1 = k')) =
      l.find? (fun p => decide (p.1 = k')) := by
  induction l with
  | nil => simp [setList, List.find?_cons, Ne.symm hne]
  | cons p ps ih =>
    by_cases h : p.1 = k
    · have h' : ¬ p.1 = k' := fun e => hne (e.symm.trans h)
      simp [setList, h, List.find?_cons, h', Ne.symm hne]
    · simp only [setList, h, if_false, List.find?_cons, ih]

theorem length_setList_absent (k : κ) (v : ν) (l : List (κ × ν))
    (h : l.find? (fun p => decide (p.1 = k)) = none) :
    (setList k v l).length = l.length + 1 := by
  induction l with
  | nil => simp [setList]
  | cons p ps ih =>
    by_cases hk : p.1 = k
    · simp [List.find?_cons, hk] at h
    · simp only [List.find?_cons, hk, decide_False] at h
      simp [setList, hk, ih h]

theorem get?_set_self (m : GoMap κ ν) (k : κ) (v : ν) : (m.set k v).get? k = some v := by
  simp [get?, set, find?_setList_self]

theorem get?_set_ne (m : GoMap κ ν) (k k' : κ) (v : ν) (hne : k' ≠ k) :
    (m.set k v).get? k' = m.get? k' := by
  simp [get?, set, find?_setList_ne k k' v m.entries hne]

theorem len_set_absent (m : GoMap κ ν) (k : κ) (v : ν) (h : m.get? k = none) :
    (m.set k v).len = m.len + 1 := by
  simp only [get?, Option.map_eq_none'] at h
  simp [len, set, length_setList_absent k v m.entries h]

theorem get?_delete_self (m : GoMap κ ν) (k : κ) : (m.delete k).get? k = none := by
  simp [get?, delete, List.find?_eq_none]

theorem get?_delete_ne (m : GoMap κ ν) (k k' : κ) (hne : k' ≠ k) :
    (m.delete k).get? k' = m.get? k' := by
  have : ∀ l : List (κ × ν),
      (l.filter (fun p => !decide (p.1 = k))).find? (fun p => decide (p.1 = k')) =
        l.find? (fun p => decide (p.1 = k')) := by
    intro l
    induction l with
    | nil => rfl
    | cons p ps ih =>
      by_cases h : p.1 = k
      · have h' : ¬ p.1 = k' := fun e => hne (e.symm.trans h)
        simp [List.filter_cons, h, List.find?_cons, Ne.symm hne, ih]
      · simp [List.filter_cons, h, List.find?_cons, ih]
  simp [get?, delete, this]

theorem filter_absent (k : κ) (l : List (κ × ν)) (h : k ∉ l.map Prod.fst) :
    l.filter (fun p => !decide (p.1 = k)) = l := by
  rw [List.filter_eq_self]
  intro p hp
  have : p.1 ≠ k := fun e => h (e ▸ List.mem_map_of_mem Prod.fst hp)
  simp [this]

theorem find?_none_iff (k : κ) (l : List (κ × ν)) :
    l.find? (fun p => decide (p.1 = k)) = none ↔ k ∉ l.map Prod.fst := by
  rw [List.find?_eq_none]
  constructor
  · intro h hk
    obtain ⟨p, hp, e⟩ := List.mem_map.1 hk
    exact h p hp (by simp [e])
  · intro h p hp e
    exact h (List.mem_map.2 ⟨p, hp, by simpa using e⟩)

theorem len_delete_absent (m : GoMap κ ν) (k : κ) (h : m.get? k = none) :
    (m.delete k).len = m.len := by
  simp only [get?, Option.map_eq_none'] at h
  simp [len, delete, filter_absent k m.entries ((find?_none_iff k m.entries).1 h)]

theorem length_filter_present (k : κ) (l : List (κ × ν)) (hnd : (l.map Prod.fst).Nodup)
    (h : k ∈ l.map Prod.fst) :
    (l.filter (fun p => !decide (p.1 = k))).length + 1 = l.length := by
  induction l with
  | nil => simp at h
  | cons p ps ih =>
    rw [List.map_cons, List.nodup_cons] at hnd
    by_cases hk : p.1 = k
    · have : k ∉ ps.map Prod.fst := hk ▸ hnd.1
      simp [List.filter_cons, hk, filter_absent k ps this]
    · have hin : k ∈ ps.map Prod.fst := by
        rw [List.map_cons, List.mem_cons] at h
        rcases h with h | h
        · exact absurd h.symm hk
        · exact h
      simp [List.filter_cons, hk, ih hnd.2 hin]

theorem len_delete_present (m : GoMap κ ν) (k : κ) (h : m.get? k ≠ none) :
    (m.delete k).len + 1 = m.len := by
  have hin : k ∈ m.entries.map Prod.fst := by
    by_contra hc
    exact h (by simp [get?, (find?_none_iff k m.entries).2 hc])
  simpa [len, delete] using length_filter_present k m.entries m.nodup hin

end GoMap

/-! ## bitswap.go: state and collaborators -/

/-- The Go type `peer.ID` is a string type. -/
abbrev PeerID := Bytes

/-- Modelled from the spec: one wantlist delta `{key, priority, cancel}` of the message wire
shape (§6); package `bitswap/message` is not part of the sources. -/
structure MsgEntry where
  Key : Key
  Priority : Int
  Cancel : Bool
  deriving DecidableEq, Repr

/-- Modelled from the spec: the message wire shape of §6, zero or more wantlist deltas and
zero or more full blocks; package `bitswap/message` is not part of the sources.
`incoming.Blocks()` is the field `Blocks`. -/
structure BitSwapMessage where
  Wantlist : List MsgEntry
  Blocks : List Block
  deriving DecidableEq, Repr

/-- State of the goprocess `bs.process`. -/
inductive ProcessState where
  | running
  | closing
  | closed
  deriving DecidableEq, Repr

/-- Whether the channel `bs.process.Closing()` is closed, so that a receive on it proceeds:
from the moment closing starts. -/
def ProcessState.Closing : ProcessState → Bool
  | .running => false
  | .closing => true
  | .closed => true

/-- Calls that leave the code of bitswap.go, in program order. -/
inductive Event where
  /-- Call `bs.blockstore.Put(blk)` and the error it returned. -/
  | put (blk : Block) (err : Option Error)
  /-- Call `bs.blockstore.Has(k)` and what it returned. -/
  | has (k : Key) (has : Bool) (err : Option Error)
  /-- Call `bs.notifications.Publish(blk)`. -/
  | publish (blk : Block)
  /-- Call `bs.notifications.Subscribe(ctx, keys...)`. -/
  | subscribe (keys : List Key)
  /-- Call `bs.wm.WantBlocks(keys)`. -/
  | wantBlocks (keys : List Key)
  /-- Call `bs.wm.CancelWants(keys)`. -/
  | cancelWants (keys : List Key)
  /-- Completed send `bs.findKeys <- req` of a request for `keys`. -/
  | findKeys (keys : List Key)
  /-- Completed send `bs.newBlocks <- blk`. -/
  | newBlocks (blk : Block)
  /-- Call `time.Sleep(d)`, with `d` in nanoseconds. -/
  | sleep (ns : Int)
  /-- Call `bs.engine.MessageReceived(p, incoming)`. -/
  | messageReceived (p : PeerID) (incoming : BitSwapMessage)
  /-- Call `bs.HasBlock(hasBlockCtx, b)` made by a goroutine of `ReceiveMessage`. -/
  | hasBlock (blk : Block)
  /-- Deferred call `cancelFunc()` of the scope derived in `GetBlock`. -/
  | cancel
  deriving DecidableEq, Repr

/-- Interface `blockstore.Blockstore` as far as bitswap.go calls it, over a blockstore
state `σ`: `Put(blk) error` and `Has(k) (bool, error)`. -/
structure Blockstore (σ : Type) where
  Put : σ → Block → σ × Option Error
  Has : σ → Key → σ × Bool × Option Error

/-- Struct `Bitswap` of bitswap.go, as far as the embedded methods touch it: the process,
the blockstore, the wantlist `bs.wm.wl` of the want manager and the two counters; `trace`
records the calls to the other collaborators. The counters are Go `int`s that only ever
grow by one per received block; they are natural numbers here. -/
structure Bitswap (σ : Type) where
  process : ProcessState
  blockstore : σ
  wl : Wantlist
  blocksRecvd : Nat
  dupBlocksRecvd : Nat
  trace : List Event

/-- Which case of a two-way `select { case ch <- v: ... case <-ctx.Done(): ... }`
proceeds. -/
inductive Select where
  /-- The channel send proceeds. -/
  | send
  /-- The receive on `ctx.Done()` proceeds; `err` is `ctx.Err()`. -/
  | done (err : Error)
  /-- Neither case ever becomes ready: the goroutine stays blocked. -/
  | never
  deriving DecidableEq, Repr

/-- Which case of the `select` of `GetBlock` proceeds. -/
inductive PromiseEvent where
  /-- Receive `block, ok := <-promise` with `ok` true. -/
  | recv (blk : Block)
  /-- Receive `block, ok := <-promise` with `ok` false: the channel is closed. `ctxErr` is
  the state of the derived scope `ctx` at the inner select: `some e` when `ctx.Done()` is
  closed, with `e` the value of `ctx.Err()`; `none` when the `default` case runs. -/
  | closed (ctxErr : Option Error)
  /-- The receive on `parent.Done()` proceeds; `err` is `parent.Err()`. -/
  | parentDone (err : Error)
  /-- Neither case ever becomes ready. -/
  | never
  deriving DecidableEq, Repr

/-- How a call ends: it returns a value, or its goroutine stays blocked. -/
inductive Outcome (α : Type) where
  | returned (a : α)
  | blocked
  deriving DecidableEq, Repr

/-- The channel `<-chan *blocks.Block` that `Subscribe(ctx, keys...)` returned. -/
structure Promise where
  keys : List Key
  deriving DecidableEq, Repr

/-- Int64 wrap-around of Go arithmetic on `time.Duration`. -/
def wrapInt64 (x : Int) : Int := (x + 2 ^ 63) % 2 ^ 64 - 2 ^ 63

namespace Bitswap

variable {σ : Type}

/-- Append one call to the trace. -/
def emit (bs : Bitswap σ) (e : Event) : Bitswap σ := { bs with trace := bs.trace ++ [e] }

/-- Constant `ErrAlreadyHaveBlock` of bitswap.go. -/
def ErrAlreadyHaveBlock : Error := "already have block"

/-- The `for` loop of `tryPutBlock`, with `n` iterations left, loop variable `i` and the
current value `err` of the variable `err`. -/
def tryPutLoop (B : Blockstore σ) (blk : Block) :
    Nat → Int → Bitswap σ → Option Error → Bitswap σ × Option Error
  | 0, _, bs, err => (bs, err)
  | n + 1, i, bs, _ =>
    let r := B.Put bs.blockstore blk
    let bs1 := ({ bs with blockstore := r.1 } : Bitswap σ).emit (Event.put blk r.2)
    match r.2 with
    | none => (bs1, none)
    | some e =>
      tryPutLoop B blk n (i + 1)
        (bs1.emit (Event.sleep (wrapInt64 (1000000 * wrapInt64 (400 * (i + 1)))))) (some e)

/-- Method `Bitswap.tryPutBlock`: up to `attempts` calls of `Put`, stopping at the first
that succeeds, sleeping `400*(i+1)` ms after each failure. -/
def tryPutBlock (B : Blockstore σ) (bs : Bitswap σ) (blk : Block) (attempts : Int) :
    Bitswap σ × Option Error :=
  tryPutLoop B blk attempts.toNat 0 bs none

/-- Method `Bitswap.HasBlock`. `sel` is the case of the final `select` that proceeds. -/
def HasBlock (B : Blockstore σ) (bs : Bitswap σ) (sel : Select) (blk : Block) :
    Bitswap σ × Outcome (Option Error) :=
  if bs.process.Closing then (bs, .returned (some "bitswap is closed"))
  else
    let r := tryPutBlock B bs blk 4
    match r.2 with
    | some e => (r.1, .returned (some e))
    | none =>
      let bs2 := r.1.emit (Event.publish blk)
      match sel with
      | .send => (bs2.emit (Event.newBlocks blk), .returned none)
      | .done e => (bs2, .returned (some e))
      | .never => (bs2, .blocked)

/-- Method `Bitswap.GetBlocks`. `sel` is the case of the final `select` that proceeds.
The result is the pair `(promise, err)`. -/
def GetBlocks (bs : Bitswap σ) (sel : Select) (keys : List Key) :
    Bitswap σ × Outcome (Option Promise × Option Error) :=
  if bs.process.Closing then (bs, .returned (none, some "bitswap is closed"))
  else
    let bs1 := bs.emit (Event.subscribe keys)
    let bs2 := bs1.emit (Event.wantBlocks keys)
    match sel with
    | .send => (bs2.emit (Event.findKeys keys), .returned (some ⟨keys⟩, none))
    | .done e => (bs2, .returned (none, some e))
    | .never => (bs2, .blocked)

/-- Method `Bitswap.GetBlock`. `sel` is the case that proceeds in the `select` of the
`GetBlocks` call, `ev` the case that proceeds in the `select` of `GetBlock` itself. The
deferred `cancelFunc()` runs on every return. The result is the pair `(block, err)`. -/
def GetBlock (bs : Bitswap σ) (sel : Select) (ev : PromiseEvent) (k : Key) :
    Bitswap σ × Outcome (Option Block × Option Error) :=
  let r := GetBlocks bs sel [k]
  match r.2 with
  | .blocked => (r.1, .blocked)
  | .returned (_, some err) => (r.1.emit Event.cancel, .returned (none, some err))
  | .returned (_, none) =>
    match ev with
    | .recv block => (r.1.emit Event.cancel, .returned (some block, none))
    | .closed (some ctxErr) => (r.1.emit Event.cancel, .returned (none, some ctxErr))
    | .closed none =>
      (r.1.emit Event.cancel, .returned (none, some "promise channel was closed"))
    | .parentDone err => (r.1.emit Event.cancel, .returned (none, some err))
    | .never => (r.1, .blocked)

/-- Method `Bitswap.updateReceiveCounters`. -/
def updateReceiveCounters (B : Blockstore σ) (bs : Bitswap σ) (k : Key) :
    Bitswap σ × Option Error :=
  let bs1 : Bitswap σ := { bs with blocksRecvd := bs.blocksRecvd + 1 }
  let r := B.Has bs1.blockstore k
  let bs2 := ({ bs1 with blockstore := r.1 } : Bitswap σ).emit (Event.has k r.2.1 r.2.2)
  match r.2.2 with
  | some err => (bs2, some err)
  | none =>
    let bs3 : Bitswap σ :=
      if r.2.1 then { bs2 with dupBlocksRecvd := bs2.dupBlocksRecvd + 1 } else bs2
    if r.2.1 then (bs3, some ErrAlreadyHaveBlock) else (bs3, none)

/-- The first loop of `ReceiveMessage`: the keys of the blocks that the wantlist contains,
appended to `keys` in the order of the blocks. -/
def wantedKeys (wl : Wantlist) : List Block → List Key → List Key
  | [], keys => keys
  | block :: rest, keys =>
    if (wl.Contains block.Key).2 = false then wantedKeys wl rest keys
    else wantedKeys wl rest (keys ++ [block.Key])

/-- The goroutine that `ReceiveMessage` starts for the block `b`; `sel` is the case that
proceeds in the `select` of its `HasBlock` call. An error of `HasBlock` is only logged. -/
def receiveBlock (B : Blockstore σ) (bs : Bitswap σ) (sel : Select) (b : Block) :
    Bitswap σ × Outcome Unit :=
  let r := updateReceiveCounters B bs b.Key
  match r.2 with
  | some _ => (r.1, .returned ())
  | none =>
    let h := HasBlock B (r.1.emit (Event.hasBlock b)) sel b
    match h.2 with
    | .returned _ => (h.1, .returned ())
    | .blocked => (h.1, .blocked)

/-- The second loop of `ReceiveMessage` with its `wg.Wait()`: one goroutine per block, the
`i`-th with the select outcome `sel i`. The goroutines run one after the other in the order
of the blocks; the flag tells whether all of them returned. -/
def receiveBlocks (B : Blockstore σ) (sel : Nat → Select) :
    Nat → List Block → Bitswap σ → Bitswap σ × Bool
  | _, [], bs => (bs, true)
  | i, b :: rest, bs =>
    let r := receiveBlock B bs (sel i) b
    let t := receiveBlocks B sel (i + 1) rest r.1
    (t.1, (decide (r.2 = .returned ())) && t.2)

/-- Method `Bitswap.ReceiveMessage`. `sel i` is the case that proceeds in the `select` of the
`HasBlock` call for the `i`-th block of the message. -/
def ReceiveMessage (B : Blockstore σ) (bs : Bitswap σ) (sel : Nat → Select) (p : PeerID)
    (incoming : BitSwapMessage) : Bitswap σ × Outcome Unit :=
  let bs1 := bs.emit (Event.messageReceived p incoming)
  let iblocks := incoming.Blocks
  if iblocks.length = 0 then (bs1, .returned ())
  else
    let keys := wantedKeys bs1.wl iblocks []
    let bs2 := bs1.emit (Event.cancelWants keys)
    let t := receiveBlocks B sel 0 iblocks bs2
    if t.2 then (t.1, .returned ()) else (t.1, .blocked)

end Bitswap

/-! ## Reading a trace -/

/-- The errors returned by the `Put` calls of a trace, in order. -/
def putResults (es : List Event) : List (Option Error) :=
  es.filterMap (fun e => match e with
    | Event.put _ err => some err
    | _ => none)

/-- The errors returned by the `Put` calls that `after` makes beyond its first part
`before`, in order. -/
def putsSince (before after : List Event) : List (Option Error) :=
  (putResults after).drop (putResults before).length

/-- The blocks published by a trace, in order. -/
def published (es : List Event) : List Block :=
  es.filterMap (fun e => match e with
    | Event.publish blk => some blk
    | _ => none)

/-- The blocks sent on `bs.newBlocks` by a trace, in order. -/
def reprovided (es : List Event) : List Block :=
  es.filterMap (fun e => match e with
    | Event.newBlocks blk => some blk
    | _ => none)

/-- The key lists passed to `CancelWants` by a trace, in order. -/
def cancelCalls (es : List Event) : List (List Key) :=
  es.filterMap (fun e => match e with
    | Event.cancelWants keys => some keys
    | _ => none)

/-- The blocks for which a trace calls `HasBlock` from `ReceiveMessage`, in order. -/
def hasBlockCalls (es : List Event) : List Block :=
  es.filterMap (fun e => match e with
    | Event.hasBlock blk => some blk
    | _ => none)

/-- The events of `tryPutBlock`: `Put` calls and sleeps. -/
def Event.fromTryPut : Event → Bool
  | Event.put _ _ => true
  | Event.sleep _ => true
  | _ => false

/-- The events of `HasBlock`: those of `tryPutBlock`, `Publish` and the send on
`bs.newBlocks`. -/
def Event.fromHasBlock : Event → Bool
  | Event.put _ _ => true
  | Event.sleep _ => true
  | Event.publish _ => true
  | Event.newBlocks _ => true
  | _ => false

/-! ## Blockstores used as examples -/

/-- A blockstore whose `Put` and `Has` always fail. -/
def failingStore : Blockstore Unit where
  Put := fun _ _ => ((), some "put failed")
  Has := fun _ _ => ((), false, some "has failed")

/-- A blockstore in memory: `Put` keeps the block, `Has` looks its key up. -/
def memStore : Blockstore (List Block) where
  Put := fun st blk => (st ++ [blk], none)
  Has := fun st k => (st, st.any (fun b => decide (b.Key = k)), none)

/-- An exchange in its initial state over a blockstore state `st`. -/
def Bitswap.init {σ : Type} (st : σ) : Bitswap σ :=
  { process := .running, blockstore := st, wl := Wantlist.New, blocksRecvd := 0,
    dupBlocksRecvd := 0, trace := [] }

/-! ## Wantlist: Add, Remove, Contains, Len -/

namespace Wantlist

theorem contains_snd_true_iff (w : Wantlist) (k : Key) :
    (w.Contains k).2 = true ↔ w.set.get? k ≠ none := by
  unfold Contains
  cases w.set.get? k <;> simp

theorem contains_snd_false_iff (w : Wantlist) (k : Key) :
    (w.Contains k).2 = false ↔ w.set.get? k = none := by
  unfold Contains
  cases w.set.get? k <;> simp

/-- C8. If the wantlist already contains `k` with priority `p1`, then `Add(k, p2)` leaves the
wantlist unchanged: `Contains(k)` returns the same entry, still with priority `p1`, and
`Len()` is unchanged. -/
theorem add_present_unchanged (w : Wantlist) (k : Key) (p1 p2 : Int)
    (hfound : (w.Contains k).2 = true) (hprio : (w.Contains k).1.Priority = p1) :
    w.Add k p2 = w ∧
      (w.Add k p2).Contains k = w.Contains k ∧
      ((w.Add k p2).Contains k).2 = true ∧
      ((w.Add k p2).Contains k).1.Priority = p1 ∧
      (w.Add k p2).Len = w.Len := by
  have hadd : w.Add k p2 = w := by
    have hne := (contains_snd_true_iff w k).1 hfound
    unfold Add
    cases h : w.set.get? k with
    | none => exact absurd h hne
    | some e => rfl
  rw [hadd]
  exact ⟨rfl, rfl, hfound, hprio, rfl⟩

/-- C9. If the wantlist does not contain `k`, then after `Add(k, p)`: `Contains(k)` returns
`(Entry{Key: k, Priority: p}, true)`, `Len()` has grown by exactly one, and `Contains(k')` is
unchanged for every other key `k'`. -/
theorem add_absent (w : Wantlist) (k : Key) (p : Int)
    (habsent : (w.Contains k).2 = false) :
    (w.Add k p).Contains k = (⟨k, p⟩, true) ∧
      (w.Add k p).Len = w.Len + 1 ∧
      ∀ k', k' ≠ k → (w.Add k p).Contains k' = w.Contains k' := by
  have hnone := (contains_snd_false_iff w k).1 habsent
  have hadd : w.Add k p = ⟨w.set.set k ⟨k, p⟩⟩ := by
    unfold Add
    rw [hnone]
  rw [hadd]
  refine ⟨?_, ?_, ?_⟩
  · simp [Contains, GoMap.get?_set_self]
  · simp [Len, GoMap.len_set_absent w.set k ⟨k, p⟩ hnone]
  · intro k' hne
    simp [Contains, GoMap.get?_set_ne w.set k k' ⟨k, p⟩ hne]

/-- C10. `Remove(k)` is total; afterwards `Contains(k)` reports not found, `Contains(k')` is
unchanged for every other key `k'`, and `Len()` is one less if `k` was present and unchanged
if `k` was absent. -/
theorem remove_spec (w : Wantlist) (k : Key) :
    (w.Remove k).Contains k = (Entry.zero, false) ∧
      (∀ k', k' ≠ k → (w.Remove k).Contains k' = w.Contains k') ∧
      ((w.Contains k).2 = true → (w.Remove k).Len + 1 = w.Len) ∧
      ((w.Contains k).2 = false → (w.Remove k).Len = w.Len) := by
  refine ⟨?_, ?_, ?_, ?_⟩
  · simp [Contains, Remove, GoMap.get?_delete_self]
  · intro k' hne
    simp [Contains, Remove, GoMap.get?_delete_ne w.set k k' hne]
  · intro h
    exact GoMap.len_delete_present w.set k ((contains_snd_true_iff w k).1 h)
  · intro h
    exact GoMap.len_delete_absent w.set k ((contains_snd_false_iff w k).1 h)

/-- A wantlist holding the key `[1]` with priority 5. -/
def sample : Wantlist := New.Add [1] 5

theorem add_present_unchanged_witness :
    (sample.Contains [1]).2 = true ∧ (sample.Contains [1]).1.Priority = 5 ∧
      (sample.Add [1] 9 = sample ∧
        (sample.Add [1] 9).Contains [1] = sample.Contains [1] ∧
        ((sample.Add [1] 9).Contains [1]).2 = true ∧
        ((sample.Add [1] 9).Contains [1]).1.Priority = 5 ∧
        (sample.Add [1] 9).Len = sample.Len) :=
  ⟨by decide, by decide, add_present_unchanged sample [1] 5 9 (by decide) (by decide)⟩

theorem add_absent_witness :
    (sample.Contains [2]).2 = false ∧
      ((sample.Add [2] 7).Contains [2] = (⟨[2], 7⟩, true) ∧
        (sample.Add [2] 7).Len = sample.Len + 1 ∧
        ∀ k', k' ≠ [2] → (sample.Add [2] 7).Contains k' = sample.Contains k') :=
  ⟨by decide, add_absent sample [2] 7 (by decide)⟩

end Wantlist

/-! ## Traces of the exchange -/

theorem putResults_append (a b : List Event) :
    putResults (a ++ b) = putResults a ++ putResults b := by
  simp [putResults, List.filterMap_append]

theorem published_append (a b : List Event) :
    published (a ++ b) = published a ++ published b := by
  simp [published, List.filterMap_append]

theorem reprovided_append (a b : List Event) :
    reprovided (a ++ b) = reprovided a ++ reprovided b := by
  simp [reprovided, List.filterMap_append]

theorem cancelCalls_append (a b : List Event) :
    cancelCalls (a ++ b) = cancelCalls a ++ cancelCalls b := by
  simp [cancelCalls, List.filterMap_append]

theorem hasBlockCalls_append (a b : List Event) :
    hasBlockCalls (a ++ b) = hasBlockCalls a ++ hasBlockCalls b := by
  simp [hasBlockCalls, List.filterMap_append]

theorem putsSince_append (a b : List Event) : putsSince a (a ++ b) = putResults b := by
  simp [putsSince, putResults_append]

theorem published_fromTryPut (es : List Event) (h : ∀ e ∈ es, e.fromTryPut = true) :
    published es = [] := by
  induction es with
  | nil => rfl
  | cons e es ih =>
    have he := h e (List.mem_cons_self e es)
    have ht := ih (fun x hx => h x (List.mem_cons_of_mem e hx))
    cases e <;> simp_all [published, Event.fromTryPut]

theorem reprovided_fromTryPut (es : List Event) (h : ∀ e ∈ es, e.fromTryPut = true) :
    reprovided es = [] := by
  induction es with
  | nil => rfl
  | cons e es ih =>
    have he := h e (List.mem_cons_self e es)
    have ht := ih (fun x hx => h x (List.mem_cons_of_mem e hx))
    cases e <;> simp_all [reprovided, Event.fromTryPut]

theorem fromHasBlock_of_fromTryPut (e : Event) (h : e.fromTryPut = true) :
    e.fromHasBlock = true := by
  cases e <;> simp_all [Event.fromTryPut, Event.fromHasBlock]

theorem cancelCalls_fromHasBlock (es : List Event) (h : ∀ e ∈ es, e.fromHasBlock = true) :
    cancelCalls es = [] := by
  induction es with
  | nil => rfl
  | cons e es ih =>
    have he := h e (List.mem_cons_self e es)
    have ht := ih (fun x hx => h x (List.mem_cons_of_mem e hx))
    cases e <;> simp_all [cancelCalls, Event.fromHasBlock]

theorem hasBlockCalls_fromHasBlock (es : List Event) (h : ∀ e ∈ es, e.fromHasBlock = true) :
    hasBlockCalls es = [] := by
  induction es with
  | nil => rfl
  | cons e es ih =>
    have he := h e (List.mem_cons_self e es)
    have ht := ih (fun x hx => h x (List.mem_cons_of_mem e hx))
    cases e <;> simp_all [hasBlockCalls, Event.fromHasBlock]

namespace Bitswap

variable {σ : Type}

@[simp] theorem emit_trace (bs : Bitswap σ) (e : Event) : (bs.emit e).trace = bs.trace ++ [e] :=
  rfl

@[simp] theorem emit_process (bs : Bitswap σ) (e : Event) : (bs.emit e).process = bs.process :=
  rfl

@[simp] theorem emit_wl (bs : Bitswap σ) (e : Event) : (bs.emit e).wl = bs.wl := rfl

@[simp] theorem emit_blocksRecvd (bs : Bitswap σ) (e : Event) :
    (bs.emit e).blocksRecvd = bs.blocksRecvd := rfl

@[simp] theorem emit_dupBlocksRecvd (bs : Bitswap σ) (e : Event) :
    (bs.emit e).dupBlocksRecvd = bs.dupBlocksRecvd := rfl

@[simp] theorem emit_blockstore (bs : Bitswap σ) (e : Event) :
    (bs.emit e).blockstore = bs.blockstore := rfl

/-- The loop of `tryPutBlock` touches the blockstore and the trace only. -/
theorem tryPutLoop_frame (B : Blockstore σ) (blk : Block) :
    ∀ (n : Nat) (i : Int) (bs : Bitswap σ) (err : Option Error),
      (tryPutLoop B blk n i bs err).1.process = bs.process ∧
      (tryPutLoop B blk n i bs err).1.wl = bs.wl ∧
      (tryPutLoop B blk n i bs err).1.blocksRecvd = bs.blocksRecvd ∧
      (tryPutLoop B blk n i bs err).1.dupBlocksRecvd = bs.dupBlocksRecvd := by
  intro n
  induction n with
  | zero => intro i bs err; simp [tryPutLoop]
  | succ n ih =>
    intro i bs err
    unfold tryPutLoop
    cases h : (B.Put bs.blockstore blk).2 with
    | none => simp [h]
    | some e =>
      simp only [h]
      have := ih (i + 1)
        ((({ bs with blockstore := (B.Put bs.blockstore blk).1 } : Bitswap σ).emit
          (Event.put blk (some e))).emit
          (Event.sleep (wrapInt64 (1000000 * wrapInt64 (400 * (i + 1)))))) (some e)
      simpa using this

/-- The loop of `tryPutBlock` extends the trace by `Put` calls and sleeps; when all of
these `Put` calls fail there are as many as iterations were left, and the loop returns the
error of the last one. -/
theorem tryPutLoop_trace (B : Blockstore σ) (blk : Block) :
    ∀ (n : Nat) (i : Int) (bs : Bitswap σ) (err : Option Error),
      ∃ added : List Event,
        (tryPutLoop B blk n i bs err).1.trace = bs.trace ++ added ∧
        (∀ e ∈ added, e.fromTryPut = true) ∧
        ((∀ r ∈ putResults added, r ≠ none) →
          (putResults added).length = n ∧
          (tryPutLoop B blk n i bs err).2 = (putResults added).getLast?.getD err) := by
  intro n
  induction n with
  | zero =>
    intro i bs err
    exact ⟨[], by simp [tryPutLoop], by simp, by simp [tryPutLoop, putResults]⟩
  | succ n ih =>
    intro i bs err
    unfold tryPutLoop
    cases h : (B.Put bs.blockstore blk).2 with
    | none =>
      refine ⟨[Event.put blk none], by simp [h], by simp [Event.fromTryPut], ?_⟩
      intro hall
      exact absurd rfl (hall none (by simp [putResults]))
    | some e =>
      simp only [h]
      obtain ⟨added, htr, hev, hput⟩ := ih (i + 1)
        ((({ bs with blockstore := (B.Put bs.blockstore blk).1 } : Bitswap σ).emit
          (Event.put blk (some e))).emit
          (Event.sleep (wrapInt64 (1000000 * wrapInt64 (400 * (i + 1)))))) (some e)
      refine ⟨Event.put blk (some e) ::
        Event.sleep (wrapInt64 (1000000 * wrapInt64 (400 * (i + 1)))) :: added, ?_, ?_, ?_⟩
      · rw [htr]
        simp
      · intro x hx
        simp only [List.mem_cons] at hx
        rcases hx with rfl | rfl | hx
        · rfl
        · rfl
        · exact hev x hx
      · intro hall
        have hcons : putResults (Event.put blk (some e) ::
            Event.sleep (wrapInt64 (1000000 * wrapInt64 (400 * (i + 1)))) :: added) =
            some e :: putResults added := by
          simp [putResults]
        rw [hcons] at hall ⊢
        have h2 := hput (fun r hr => hall r (List.mem_cons_of_mem _ hr))
        refine ⟨by simp [h2.1], ?_⟩
        rw [h2.2]
        cases hl : putResults added with
        | nil => simp
        | cons a l =>
          simp [List.getLast?_cons]

end Bitswap

/-! ## HasBlock, GetBlocks and GetBlock -/

/-- A block used in the examples. -/
def sampleBlock : Block := ⟨[1], [2]⟩

/-- An open exchange over the blockstore that always fails. -/
def openFailing : Bitswap Unit := Bitswap.init ()

/-- A closed exchange over the blockstore that always fails. -/
def closedFailing : Bitswap Unit := { Bitswap.init () with process := .closed }

/-- An exchange over an empty blockstore in memory whose process is closing. -/
def closingMem : Bitswap (List Block) := { Bitswap.init [] with process := .closing }

/-- An open exchange over an empty blockstore in memory. -/
def openMem : Bitswap (List Block) := Bitswap.init []

namespace Bitswap

variable {σ : Type}

/-- C1, as amended. On an exchange that is not closing or closed, if every `Put` attempt
of a `HasBlock` call fails, the call makes exactly 4 `Put` attempts, returns the error of
the last one, publishes nothing and sends nothing on the reprovide queue. -/
theorem hasBlock_put_exhausted (B : Blockstore σ) (bs : Bitswap σ) (sel : Select)
    (blk : Block) (hopen : bs.process = .running)
    (hfail : ∀ r ∈ putsSince bs.trace (HasBlock B bs sel blk).1.trace, r ≠ none) :
    (putsSince bs.trace (HasBlock B bs sel blk).1.trace).length = 4 ∧
      (∃ e : Error,
        (putsSince bs.trace (HasBlock B bs sel blk).1.trace).getLast? = some (some e) ∧
        (HasBlock B bs sel blk).2 = .returned (some e)) ∧
      published (HasBlock B bs sel blk).1.trace = published bs.trace ∧
      reprovided (HasBlock B bs sel blk).1.trace = reprovided bs.trace := by
  obtain ⟨added, htr, hev, hput⟩ := tryPutLoop_trace B blk 4 0 bs none
  have hcl : bs.process.Closing = false := by rw [hopen]; rfl
  have hlast : ∀ l : List (Option Error), l.length = 4 → (∀ r ∈ l, r ≠ none) →
      ∃ e : Error, l.getLast? = some (some e) := by
    intro l hl hall
    have hne : l ≠ [] := by
      intro h0
      rw [h0] at hl
      simp at hl
    have hmem := List.getLast_mem hne
    cases hx : l.getLast hne with
    | none => exact absurd hx (hall _ hmem)
    | some e => exact ⟨e, by rw [List.getLast?_eq_getLast l hne, hx]⟩
  cases hr : (tryPutLoop B blk 4 0 bs none).2 with
  | some e =>
    have hout : HasBlock B bs sel blk = ((tryPutLoop B blk 4 0 bs none).1, .returned (some e)) := by
      simp [HasBlock, hcl, tryPutBlock, hr]
    rw [hout] at hfail ⊢
    simp only [htr, putsSince_append] at hfail ⊢
    have h2 := hput hfail
    obtain ⟨e', he'⟩ := hlast _ h2.1 hfail
    have hee : e = e' := by
      have := h2.2
      rw [hr, he'] at this
      simpa using this
    refine ⟨h2.1, ⟨e', he', by rw [hee]⟩, ?_, ?_⟩
    · rw [published_append, published_fromTryPut added hev, List.append_nil]
    · rw [reprovided_append, reprovided_fromTryPut added hev, List.append_nil]
  | none =>
    exfalso
    have hsub : ∀ r ∈ putResults added, r ≠ none := by
      intro r hrm
      apply hfail r
      have htrace : ∃ tail, (HasBlock B bs sel blk).1.trace = bs.trace ++ (added ++ tail) ∧
          putResults tail = [] := by
        cases sel with
        | send =>
          exact ⟨[Event.publish blk, Event.newBlocks blk],
            by simp [HasBlock, hcl, tryPutBlock, hr, htr], by simp [putResults]⟩
        | done e =>
          exact ⟨[Event.publish blk], by simp [HasBlock, hcl, tryPutBlock, hr, htr],
            by simp [putResults]⟩
        | never =>
          exact ⟨[Event.publish blk], by simp [HasBlock, hcl, tryPutBlock, hr, htr],
            by simp [putResults]⟩
      obtain ⟨tail, ht, hp⟩ := htrace
      rw [ht, putsSince_append, putResults_append, hp, List.append_nil]
      exact hrm
    have h2 := hput hsub
    obtain ⟨e', he'⟩ := hlast _ h2.1 hsub
    have := h2.2
    rw [hr, he'] at this
    simp at this

theorem hasBlock_put_exhausted_witness :
    openFailing.process = .running ∧
      (putsSince openFailing.trace
        (HasBlock failingStore openFailing .send sampleBlock).1.trace).length = 4 ∧
      (∃ e : Error,
        (putsSince openFailing.trace
          (HasBlock failingStore openFailing .send sampleBlock).1.trace).getLast?
            = some (some e) ∧
        (HasBlock failingStore openFailing .send sampleBlock).2 = .returned (some e)) ∧
      published (HasBlock failingStore openFailing .send sampleBlock).1.trace
        = published openFailing.trace ∧
      reprovided (HasBlock failingStore openFailing .send sampleBlock).1.trace
        = reprovided openFailing.trace :=
  ⟨rfl, hasBlock_put_exhausted failingStore openFailing .send sampleBlock rfl (by decide)⟩

/-- C1, as stated, fails on a closed exchange: over a blockstore whose every `Put` fails,
`HasBlock` makes no `Put` attempt at all (so none succeeds) and returns the error
"bitswap is closed", not the error of a fourth attempt. -/
theorem hasBlock_closed_makes_no_put :
    (∀ st b, (failingStore.Put st b).2 ≠ none) ∧
      (∀ r ∈ putsSince closedFailing.trace
        (HasBlock failingStore closedFailing .send sampleBlock).1.trace, r ≠ none) ∧
      (putsSince closedFailing.trace
        (HasBlock failingStore closedFailing .send sampleBlock).1.trace).length ≠ 4 ∧
      (HasBlock failingStore closedFailing .send sampleBlock).2
        = .returned (some "bitswap is closed") := by
  refine ⟨?_, by decide, by decide, by decide⟩
  intro st b
  simp [failingStore]

/-- C3. When the exchange is closing or closed, `HasBlock` returns the error
"bitswap is closed" and leaves the state as it was: no `Put`, no `Publish`, no send on the
reprovide queue. -/
theorem hasBlock_closed (B : Blockstore σ) (bs : Bitswap σ) (sel : Select) (blk : Block)
    (hclosed : bs.process = .closing ∨ bs.process = .closed) :
    HasBlock B bs sel blk = (bs, .returned (some "bitswap is closed")) ∧
      putResults (HasBlock B bs sel blk).1.trace = putResults bs.trace ∧
      published (HasBlock B bs sel blk).1.trace = published bs.trace ∧
      reprovided (HasBlock B bs sel blk).1.trace = reprovided bs.trace := by
  have hcl : bs.process.Closing = true := by
    rcases hclosed with h | h <;> rw [h] <;> rfl
  have : HasBlock B bs sel blk = (bs, .returned (some "bitswap is closed")) := by
    simp [HasBlock, hcl]
  rw [this]
  exact ⟨rfl, rfl, rfl, rfl⟩

theorem hasBlock_closed_witness :
    (closingMem.process = .closing ∨ closingMem.process = .closed) ∧
      (HasBlock memStore closingMem .send sampleBlock
          = (closingMem, .returned (some "bitswap is closed")) ∧
        putResults (HasBlock memStore closingMem .send sampleBlock).1.trace
          = putResults closingMem.trace ∧
        published (HasBlock memStore closingMem .send sampleBlock).1.trace
          = published closingMem.trace ∧
        reprovided (HasBlock memStore closingMem .send sampleBlock).1.trace
          = reprovided closingMem.trace) :=
  ⟨Or.inl rfl, hasBlock_closed memStore closingMem .send sampleBlock (Or.inl rfl)⟩

/-- C2. When the exchange is closing or closed, `GetBlocks` returns no channel and the error
"bitswap is closed" and leaves the state as it was: the trace gains no `Subscribe`, no
`WantBlocks` and no send on the provider-discovery queue. -/
theorem getBlocks_closed (bs : Bitswap σ) (sel : Select) (keys : List Key)
    (hclosed : bs.process = .closing ∨ bs.process = .closed) :
    GetBlocks bs sel keys = (bs, .returned (none, some "bitswap is closed")) ∧
      (GetBlocks bs sel keys).1.trace = bs.trace := by
  have hcl : bs.process.Closing = true := by
    rcases hclosed with h | h <;> rw [h] <;> rfl
  have : GetBlocks bs sel keys = (bs, .returned (none, some "bitswap is closed")) := by
    simp [GetBlocks, hcl]
  rw [this]
  exact ⟨rfl, rfl⟩

theorem getBlocks_closed_witness :
    (closedFailing.process = .closing ∨ closedFailing.process = .closed) ∧
      (GetBlocks closedFailing .send [[1], [2]]
          = (closedFailing, .returned (none, some "bitswap is closed")) ∧
        (GetBlocks closedFailing .send [[1], [2]]).1.trace = closedFailing.trace) :=
  ⟨Or.inr rfl, getBlocks_closed closedFailing .send [[1], [2]] (Or.inr rfl)⟩

end Bitswap

/-! ## GetBlock -/

namespace Bitswap

variable {σ : Type}

/-- C4. The outcomes of `GetBlock(parent, k)`: an error of `GetBlocks` is returned as it is,
with no block; a block yielded by the promise channel is returned with a nil error; when the
promise channel is closed without a block the result is the error of the derived scope if
that scope is done and the error "promise channel was closed" otherwise; when the parent
scope ends first the result is `parent.Err()` with no block. `GetBlock` stays blocked only
when `GetBlocks` does or when no case of its `select` ever proceeds. -/
theorem getBlock_outcomes (bs : Bitswap σ) (sel : Select) (ev : PromiseEvent) (k : Key) :
    (∀ p err, (GetBlocks bs sel [k]).2 = .returned (p, some err) →
        (GetBlock bs sel ev k).2 = .returned (none, some err)) ∧
      (∀ p, (GetBlocks bs sel [k]).2 = .returned (p, none) →
        (∀ blk, ev = .recv blk → (GetBlock bs sel ev k).2 = .returned (some blk, none)) ∧
        (∀ e, ev = .closed (some e) → (GetBlock bs sel ev k).2 = .returned (none, some e)) ∧
        (ev = .closed none →
          (GetBlock bs sel ev k).2 = .returned (none, some "promise channel was closed")) ∧
        (∀ e, ev = .parentDone e → (GetBlock bs sel ev k).2 = .returned (none, some e)) ∧
        (ev = .never → (GetBlock bs sel ev k).2 = .blocked)) ∧
      ((GetBlocks bs sel [k]).2 = .blocked → (GetBlock bs sel ev k).2 = .blocked) := by
  refine ⟨?_, ?_, ?_⟩
  · intro p err h
    simp [GetBlock, h]
  · intro p h
    refine ⟨?_, ?_, ?_, ?_, ?_⟩
    · intro blk hev
      simp [GetBlock, h, hev]
    · intro e hev
      simp [GetBlock, h, hev]
    · intro hev
      simp [GetBlock, h, hev]
    · intro e hev
      simp [GetBlock, h, hev]
    · intro hev
      simp [GetBlock, h, hev]
  · intro h
    simp [GetBlock, h]

/-- The outcomes of C4 on an open and on a closed exchange. -/
theorem getBlock_outcomes_witness :
    (GetBlock closedFailing .send (.recv sampleBlock) [1]).2
        = .returned (none, some "bitswap is closed") ∧
      (GetBlock openMem (.done "context canceled") (.recv sampleBlock) [1]).2
        = .returned (none, some "context canceled") ∧
      (GetBlock openMem .send (.recv sampleBlock) [1]).2 = .returned (some sampleBlock, none) ∧
      (GetBlock openMem .send (.closed (some "context canceled")) [1]).2
        = .returned (none, some "context canceled") ∧
      (GetBlock openMem .send (.closed none) [1]).2
        = .returned (none, some "promise channel was closed") ∧
      (GetBlock openMem .send (.parentDone "context deadline exceeded") [1]).2
        = .returned (none, some "context deadline exceeded") :=
  ⟨(getBlock_outcomes closedFailing .send (.recv sampleBlock) [1]).1 none _ (by decide),
    (getBlock_outcomes openMem (.done "context canceled") (.recv sampleBlock) [1]).1 none _
      (by decide),
    ((getBlock_outcomes openMem .send (.recv sampleBlock) [1]).2.1 (some ⟨[[1]]⟩)
      (by decide)).1 sampleBlock rfl,
    ((getBlock_outcomes openMem .send (.closed (some "context canceled")) [1]).2.1
      (some ⟨[[1]]⟩) (by decide)).2.1 _ rfl,
    ((getBlock_outcomes openMem .send (.closed none) [1]).2.1 (some ⟨[[1]]⟩)
      (by decide)).2.2.1 rfl,
    ((getBlock_outcomes openMem .send (.parentDone "context deadline exceeded") [1]).2.1
      (some ⟨[[1]]⟩) (by decide)).2.2.2.1 _ rfl⟩

end Bitswap

/-! ## ReceiveMessage -/

/-- The results `(k, has, err)` of the `Has` calls of a trace, in order. -/
def hasResults (es : List Event) : List (Key × Bool × Option Error) :=
  es.filterMap (fun e => match e with
    | Event.has k has err => some (k, has, err)
    | _ => none)

/-- The `HasBlock` call that the goroutine of `ReceiveMessage` makes for the block `b`
after `Has` returned `r`: one call when `r` is `(false, nil)`, none otherwise. -/
def hasBlockCallFor (b : Block) (r : Key × Bool × Option Error) : Option Block :=
  if r.2 = (false, none) then some b else none

/-- Whether a result of `Has` says that the key is stored: `(true, nil)`. -/
def isStored (r : Key × Bool × Option Error) : Bool := decide (r.2 = (true, none))

theorem hasResults_append (a b : List Event) :
    hasResults (a ++ b) = hasResults a ++ hasResults b := by
  simp [hasResults, List.filterMap_append]

theorem hasResults_fromHasBlock (es : List Event) (h : ∀ e ∈ es, e.fromHasBlock = true) :
    hasResults es = [] := by
  induction es with
  | nil => rfl
  | cons e es ih =>
    have he := h e (List.mem_cons_self e es)
    have ht := ih (fun x hx => h x (List.mem_cons_of_mem e hx))
    cases e <;> simp_all [hasResults, Event.fromHasBlock]

namespace Bitswap

variable {σ : Type}

/-- The loop of `tryPutBlock` returns nil at once over a blockstore whose `Put` succeeds. -/
theorem tryPutBlock_working (B : Blockstore σ) (bs : Bitswap σ) (blk : Block)
    (hput : ∀ st b, (B.Put st b).2 = none) :
    (tryPutBlock B bs blk 4).2 = none := by
  have h := hput bs.blockstore blk
  have h4 : (4 : Int).toNat = 3 + 1 := by decide
  unfold tryPutBlock
  rw [h4]
  unfold tryPutLoop
  simp [h]

/-- Method `HasBlock` touches the blockstore and the trace only. -/
theorem hasBlock_frame (B : Blockstore σ) (bs : Bitswap σ) (sel : Select) (blk : Block) :
    (HasBlock B bs sel blk).1.process = bs.process ∧
      (HasBlock B bs sel blk).1.wl = bs.wl ∧
      (HasBlock B bs sel blk).1.blocksRecvd = bs.blocksRecvd ∧
      (HasBlock B bs sel blk).1.dupBlocksRecvd = bs.dupBlocksRecvd := by
  have hf := tryPutLoop_frame B blk (4 : Int).toNat 0 bs none
  unfold HasBlock
  by_cases hcl : bs.process.Closing = true
  · simp [hcl]
  · simp only [hcl, Bool.false_eq_true, if_false]
    cases hr : (tryPutBlock B bs blk 4).2 with
    | some e => simpa [tryPutBlock] using hf
    | none =>
      cases sel <;> simpa [tryPutBlock] using hf

/-- Method `HasBlock` extends the trace by `Put` calls, sleeps, `Publish` and the send on
the reprovide queue. -/
theorem hasBlock_trace (B : Blockstore σ) (bs : Bitswap σ) (sel : Select) (blk : Block) :
    ∃ added : List Event,
      (HasBlock B bs sel blk).1.trace = bs.trace ++ added ∧
      ∀ e ∈ added, e.fromHasBlock = true := by
  obtain ⟨added, htr, hev, -⟩ := tryPutLoop_trace B blk 4 0 bs none
  have hev' : ∀ e ∈ added, e.fromHasBlock = true :=
    fun e he => fromHasBlock_of_fromTryPut e (hev e he)
  unfold HasBlock
  by_cases hcl : bs.process.Closing = true
  · exact ⟨[], by simp [hcl], by simp⟩
  · simp only [hcl, Bool.false_eq_true, if_false]
    cases hr : (tryPutBlock B bs blk 4).2 with
    | some e => exact ⟨added, by simpa [tryPutBlock] using htr, hev'⟩
    | none =>
      cases sel with
      | send =>
        refine ⟨added ++ [Event.publish blk, Event.newBlocks blk], ?_, ?_⟩
        · simp [tryPutBlock, htr]
        · intro e he
          simp only [List.mem_append, List.mem_cons, List.mem_singleton,
            List.not_mem_nil, or_false] at he
          rcases he with he | rfl | rfl
          · exact hev' e he
          · rfl
          · rfl
      | done err =>
        refine ⟨added ++ [Event.publish blk], ?_, ?_⟩
        · simp [tryPutBlock, htr]
        · intro e he
          simp only [List.mem_append, List.mem_singleton] at he
          rcases he with he | rfl
          · exact hev' e he
          · rfl
      | never =>
        refine ⟨added ++ [Event.publish blk], ?_, ?_⟩
        · simp [tryPutBlock, htr]
        · intro e he
          simp only [List.mem_append, List.mem_singleton] at he
          rcases he with he | rfl
          · exact hev' e he
          · rfl

/-- The first loop of `ReceiveMessage` appends the keys of the wanted blocks, in order. -/
theorem wantedKeys_eq (wl : Wantlist) (blocks : List Block) (keys : List Key) :
    wantedKeys wl blocks keys =
      keys ++ (blocks.filter (fun b => (wl.Contains b.Key).2)).map Block.Key := by
  induction blocks generalizing keys with
  | nil => simp [wantedKeys]
  | cons b rest ih =>
    unfold wantedKeys
    cases h : (wl.Contains b.Key).2 with
    | false => simp [h, ih]
    | true => simp [h, ih]

/-- One goroutine of `ReceiveMessage`: it counts the block, calls `Has` once, counts a
duplicate when `Has` returns `(true, nil)`, calls `HasBlock` when `Has` returns
`(false, nil)`, and returns when it does not call `HasBlock`. -/
theorem receiveBlock_spec (B : Blockstore σ) (bs : Bitswap σ) (sel : Select) (b : Block) :
    ∃ added : List Event,
      (receiveBlock B bs sel b).1.trace = bs.trace ++ added ∧
      hasResults added = [(b.Key, (B.Has bs.blockstore b.Key).2)] ∧
      hasBlockCalls added
        = (hasBlockCallFor b (b.Key, (B.Has bs.blockstore b.Key).2)).toList ∧
      cancelCalls added = [] ∧
      (receiveBlock B bs sel b).1.blocksRecvd = bs.blocksRecvd + 1 ∧
      (receiveBlock B bs sel b).1.dupBlocksRecvd = bs.dupBlocksRecvd +
        (if (B.Has bs.blockstore b.Key).2 = (true, none) then 1 else 0) ∧
      (receiveBlock B bs sel b).1.wl = bs.wl ∧
      ((B.Has bs.blockstore b.Key).2 ≠ (false, none) →
        (receiveBlock B bs sel b).2 = .returned ()) := by
  rcases hH : B.Has bs.blockstore b.Key with ⟨st, has, err⟩
  cases err with
  | some e =>
    refine ⟨[Event.has b.Key has (some e)], ?_, ?_, ?_, ?_, ?_, ?_, ?_, ?_⟩ <;>
      simp [receiveBlock, updateReceiveCounters, hH, hasResults, hasBlockCalls, cancelCalls,
        hasBlockCallFor]
  | none =>
    cases has with
    | true =>
      refine ⟨[Event.has b.Key true none], ?_, ?_, ?_, ?_, ?_, ?_, ?_, ?_⟩ <;>
        simp [receiveBlock, updateReceiveCounters, hH, hasResults, hasBlockCalls, cancelCalls,
          hasBlockCallFor]
    | false =>
      have hu : updateReceiveCounters B bs b.Key =
          ((({ bs with blocksRecvd := bs.blocksRecvd + 1, blockstore := st } : Bitswap σ).emit
            (Event.has b.Key false none)), none) := by
        simp [updateReceiveCounters, hH]
      obtain ⟨hadded, htr, hev⟩ := hasBlock_trace B
        (((({ bs with blocksRecvd := bs.blocksRecvd + 1, blockstore := st } : Bitswap σ).emit
          (Event.has b.Key false none))).emit (Event.hasBlock b)) sel b
      have hfr := hasBlock_frame B
        (((({ bs with blocksRecvd := bs.blocksRecvd + 1, blockstore := st } : Bitswap σ).emit
          (Event.has b.Key false none))).emit (Event.hasBlock b)) sel b
      have hfst : (receiveBlock B bs sel b).1 = (HasBlock B
          (((({ bs with blocksRecvd := bs.blocksRecvd + 1, blockstore := st } : Bitswap σ).emit
            (Event.has b.Key false none))).emit (Event.hasBlock b)) sel b).1 := by
        unfold receiveBlock
        rw [hu]
        simp only
        split <;> rfl
      refine ⟨Event.has b.Key false none :: Event.hasBlock b :: hadded, ?_, ?_, ?_, ?_, ?_, ?_,
        ?_, ?_⟩
      · rw [hfst, htr]
        simp
      · have := hasResults_fromHasBlock hadded hev
        simp [hasResults] at this ⊢
        exact this
      · have := hasBlockCalls_fromHasBlock hadded hev
        simp [hasBlockCalls, hasBlockCallFor] at this ⊢
        exact this
      · have := cancelCalls_fromHasBlock hadded hev
        simp [cancelCalls] at this ⊢
        exact this
      · rw [hfst, hfr.2.2.1]
        rfl
      · rw [hfst, hfr.2.2.2]
        simp
      · rw [hfst, hfr.2.1]
        rfl
      · intro hne
        exact absurd rfl hne

end Bitswap

namespace Bitswap

variable {σ : Type}

/-- The goroutines of `ReceiveMessage`, taken together: one `Has` call per block, in the
order of the blocks; one count per block; one duplicate count per `Has` that returned
`(true, nil)`; one `HasBlock` call per `Has` that returned `(false, nil)`; no
`CancelWants`. -/
theorem receiveBlocks_spec (B : Blockstore σ) (sel : Nat → Select) (blocks : List Block) :
    ∀ (i : Nat) (bs : Bitswap σ), ∃ added : List Event,
      (receiveBlocks B sel i blocks bs).1.trace = bs.trace ++ added ∧
      (hasResults added).map Prod.fst = blocks.map Block.Key ∧
      hasBlockCalls added
        = (blocks.zip (hasResults added)).filterMap (fun x => hasBlockCallFor x.1 x.2) ∧
      cancelCalls added = [] ∧
      (receiveBlocks B sel i blocks bs).1.blocksRecvd = bs.blocksRecvd + blocks.length ∧
      (receiveBlocks B sel i blocks bs).1.dupBlocksRecvd
        = bs.dupBlocksRecvd + (hasResults added).countP isStored := by
  induction blocks with
  | nil =>
    intro i bs
    exact ⟨[], by simp [receiveBlocks], by simp [hasResults], by simp [hasBlockCalls, hasResults],
      by simp [cancelCalls], by simp [receiveBlocks], by simp [receiveBlocks, hasResults]⟩
  | cons b rest ih =>
    intro i bs
    obtain ⟨a1, h1tr, h1has, h1calls, h1cancel, h1recv, h1dup, -, -⟩ :=
      receiveBlock_spec B bs (sel i) b
    obtain ⟨a2, h2tr, h2has, h2calls, h2cancel, h2recv, h2dup⟩ :=
      ih (i + 1) (receiveBlock B bs (sel i) b).1
    have hout : (receiveBlocks B sel i (b :: rest) bs).1 =
        (receiveBlocks B sel (i + 1) rest (receiveBlock B bs (sel i) b).1).1 := by
      simp [receiveBlocks]
    refine ⟨a1 ++ a2, ?_, ?_, ?_, ?_, ?_, ?_⟩
    · rw [hout, h2tr, h1tr, List.append_assoc]
    · rw [hasResults_append, h1has]
      simp [h2has]
    · rw [hasBlockCalls_append, hasResults_append, h1has, h1calls, h2calls]
      cases hc : hasBlockCallFor b (b.Key, (B.Has bs.blockstore b.Key).2) <;> simp [hc]
    · rw [cancelCalls_append, h1cancel, h2cancel]
      rfl
    · rw [hout, h2recv, h1recv]
      simp
      omega
    · rw [hout, h2dup, h1dup, hasResults_append, h1has]
      by_cases hs : (B.Has bs.blockstore b.Key).2 = (true, none)
      · simp [hs, isStored, List.countP_cons]
        omega
      · simp [hs, isStored, List.countP_cons]

/-- C5. The `CancelWants` calls of `ReceiveMessage`: for a message with at least one block,
one call, whose key list is the keys of the incoming blocks that the local wantlist
contains, in message order (so the key of an un-asked-for block is not in it); for a
message with no block, none. -/
theorem receiveMessage_cancelWants (B : Blockstore σ) (bs : Bitswap σ) (sel : Nat → Select)
    (p : PeerID) (incoming : BitSwapMessage) :
    cancelCalls (ReceiveMessage B bs sel p incoming).1.trace =
      cancelCalls bs.trace ++
        (if incoming.Blocks = [] then []
          else [(incoming.Blocks.filter (fun b => (bs.wl.Contains b.Key).2)).map Block.Key]) := by
  unfold ReceiveMessage
  by_cases hnil : incoming.Blocks = []
  · simp [hnil, cancelCalls]
  · have hlen : ¬ incoming.Blocks.length = 0 := by
      intro h
      exact hnil (List.length_eq_zero.1 h)
    obtain ⟨added, htr, -, -, hcancel, -, -⟩ := receiveBlocks_spec B sel incoming.Blocks 0
      ((bs.emit (Event.messageReceived p incoming)).emit
        (Event.cancelWants (wantedKeys (bs.emit (Event.messageReceived p incoming)).wl
          incoming.Blocks [])))
    simp only [hlen, hnil, if_false]
    have htrace : ∀ t : Bitswap σ × Bool,
        (if t.2 = true then (t.1, Outcome.returned ()) else (t.1, Outcome.blocked)).1 = t.1 := by
      intro t
      split <;> rfl
    rw [htrace, htr, cancelCalls_append, hcancel]
    simp [cancelCalls, wantedKeys_eq]

/-- C6. For a message, `ReceiveMessage` calls `Has` once per block and adds the number of
blocks to the blocks-received counter; it calls `HasBlock` exactly for the blocks whose
`Has` returned `(false, nil)` and adds one to the duplicate-blocks counter per `Has` that
returned `(true, nil)`. The same holds for the goroutine of one block started in any state,
and that goroutine returns, with no error value, when the block is already stored. -/
theorem receiveMessage_counters (B : Blockstore σ) :
    (∀ (bs : Bitswap σ) (sel : Nat → Select) (p : PeerID) (incoming : BitSwapMessage),
      ∃ added : List Event,
        (ReceiveMessage B bs sel p incoming).1.trace = bs.trace ++ added ∧
        (hasResults added).map Prod.fst = incoming.Blocks.map Block.Key ∧
        (ReceiveMessage B bs sel p incoming).1.blocksRecvd
          = bs.blocksRecvd + incoming.Blocks.length ∧
        hasBlockCalls added
          = (incoming.Blocks.zip (hasResults added)).filterMap
              (fun x => hasBlockCallFor x.1 x.2) ∧
        (ReceiveMessage B bs sel p incoming).1.dupBlocksRecvd
          = bs.dupBlocksRecvd + (hasResults added).countP isStored) ∧
      (∀ (bs : Bitswap σ) (sel : Select) (b : Block),
        (receiveBlock B bs sel b).1.blocksRecvd = bs.blocksRecvd + 1 ∧
        (hasBlockCalls (receiveBlock B bs sel b).1.trace = hasBlockCalls bs.trace ++
          (if (B.Has bs.blockstore b.Key).2 = (false, none) then [b] else [])) ∧
        ((B.Has bs.blockstore b.Key).2 = (true, none) →
          (receiveBlock B bs sel b).1.dupBlocksRecvd = bs.dupBlocksRecvd + 1 ∧
          (receiveBlock B bs sel b).2 = .returned ())) := by
  constructor
  · intro bs sel p incoming
    unfold ReceiveMessage
    by_cases hnil : incoming.Blocks = []
    · exact ⟨[Event.messageReceived p incoming], by simp [hnil], by simp [hnil, hasResults],
        by simp [hnil], by simp [hnil, hasBlockCalls], by simp [hnil, hasResults]⟩
    · have hlen : ¬ incoming.Blocks.length = 0 := by
        intro h
        exact hnil (List.length_eq_zero.1 h)
      obtain ⟨added, htr, hhas, hcalls, -, hrecv, hdup⟩ :=
        receiveBlocks_spec B sel incoming.Blocks 0
          ((bs.emit (Event.messageReceived p incoming)).emit
            (Event.cancelWants (wantedKeys (bs.emit (Event.messageReceived p incoming)).wl
              incoming.Blocks [])))
      have hfst : ∀ t : Bitswap σ × Bool,
          (if t.2 = true then (t.1, Outcome.returned ()) else (t.1, Outcome.blocked)).1
            = t.1 := by
        intro t
        split <;> rfl
      simp only [hlen, if_false]
      refine ⟨Event.messageReceived p incoming ::
        Event.cancelWants (wantedKeys (bs.emit (Event.messageReceived p incoming)).wl
          incoming.Blocks []) :: added, ?_, ?_, ?_, ?_, ?_⟩
      · rw [hfst, htr]
        simp
      · simpa [hasResults] using hhas
      · rw [hfst, hrecv]
        rfl
      · have h1 : hasResults (Event.messageReceived p incoming ::
            Event.cancelWants (wantedKeys (bs.emit (Event.messageReceived p incoming)).wl
              incoming.Blocks []) :: added) = hasResults added := by
          simp [hasResults]
        have h2 : hasBlockCalls (Event.messageReceived p incoming ::
            Event.cancelWants (wantedKeys (bs.emit (Event.messageReceived p incoming)).wl
              incoming.Blocks []) :: added) = hasBlockCalls added := by
          simp [hasBlockCalls]
        rw [h1, h2, hcalls]
      · have h1 : hasResults (Event.messageReceived p incoming ::
            Event.cancelWants (wantedKeys (bs.emit (Event.messageReceived p incoming)).wl
              incoming.Blocks []) :: added) = hasResults added := by
          simp [hasResults]
        rw [hfst, hdup, h1]
        rfl
  · intro bs sel b
    obtain ⟨added, htr, -, hcalls, -, hrecv, hdup, -, hret⟩ := receiveBlock_spec B bs sel b
    refine ⟨hrecv, ?_, ?_⟩
    · rw [htr, hasBlockCalls_append, hcalls]
      by_cases hs : (B.Has bs.blockstore b.Key).2 = (false, none)
      · simp [hasBlockCallFor, hs]
      · simp [hasBlockCallFor, hs]
    · intro hs
      refine ⟨by rw [hdup]; simp [hs], hret ?_⟩
      rw [hs]
      simp

end Bitswap

/-! ## HasBlock called twice -/

namespace Bitswap

variable {σ : Type}

/-- On an open exchange over a blockstore whose `Put` succeeds, `HasBlock` ends as the
case of its final `select` says. -/
theorem hasBlock_working (B : Blockstore σ) (bs : Bitswap σ) (sel : Select) (blk : Block)
    (hopen : bs.process = .running) (hput : ∀ st b, (B.Put st b).2 = none) :
    (HasBlock B bs sel blk).2 =
      (match sel with
        | .send => .returned none
        | .done e => .returned (some e)
        | .never => .blocked) := by
  have hcl : bs.process.Closing = false := by rw [hopen]; rfl
  have hr := tryPutBlock_working B bs blk hput
  unfold HasBlock
  simp only [hcl, Bool.false_eq_true, if_false, hr]
  cases sel <;> rfl

/-- C7, as amended. Calling `HasBlock` twice with the same block, on an open exchange with a
working blockstore and a live scope, returns an error neither time, and returns nil each
time the send on the reprovide queue proceeds; neither call changes the duplicate-blocks
counter. -/
theorem hasBlock_twice (B : Blockstore σ) (bs : Bitswap σ) (sel1 sel2 : Select) (blk : Block)
    (hopen : bs.process = .running) (hput : ∀ st b, (B.Put st b).2 = none)
    (hlive1 : ∀ e, sel1 ≠ .done e) (hlive2 : ∀ e, sel2 ≠ .done e) :
    (∀ e, (HasBlock B bs sel1 blk).2 ≠ .returned (some e)) ∧
      (∀ e, (HasBlock B (HasBlock B bs sel1 blk).1 sel2 blk).2 ≠ .returned (some e)) ∧
      (sel1 = .send → (HasBlock B bs sel1 blk).2 = .returned none) ∧
      (sel2 = .send → (HasBlock B (HasBlock B bs sel1 blk).1 sel2 blk).2 = .returned none) ∧
      (HasBlock B bs sel1 blk).1.dupBlocksRecvd = bs.dupBlocksRecvd ∧
      (HasBlock B (HasBlock B bs sel1 blk).1 sel2 blk).1.dupBlocksRecvd
        = bs.dupBlocksRecvd := by
  have hf1 := hasBlock_frame B bs sel1 blk
  have hf2 := hasBlock_frame B (HasBlock B bs sel1 blk).1 sel2 blk
  have hopen2 : (HasBlock B bs sel1 blk).1.process = .running := by rw [hf1.1, hopen]
  have h1 := hasBlock_working B bs sel1 blk hopen hput
  have h2 := hasBlock_working B (HasBlock B bs sel1 blk).1 sel2 blk hopen2 hput
  refine ⟨?_, ?_, ?_, ?_, hf1.2.2.2, by rw [hf2.2.2.2, hf1.2.2.2]⟩
  · intro e
    rw [h1]
    cases sel1 with
    | send => simp
    | done e' => exact absurd rfl (hlive1 e')
    | never => simp
  · intro e
    rw [h2]
    cases sel2 with
    | send => simp
    | done e' => exact absurd rfl (hlive2 e')
    | never => simp
  · intro hs
    rw [h1, hs]
  · intro hs
    rw [h2, hs]

theorem hasBlock_twice_witness :
    openMem.process = .running ∧ (∀ st b, (memStore.Put st b).2 = none) ∧
      ((∀ e, (HasBlock memStore openMem .send sampleBlock).2 ≠ .returned (some e)) ∧
        (∀ e, (HasBlock memStore (HasBlock memStore openMem .send sampleBlock).1 .send
          sampleBlock).2 ≠ .returned (some e)) ∧
        (Select.send = .send →
          (HasBlock memStore openMem .send sampleBlock).2 = .returned none) ∧
        (Select.send = .send →
          (HasBlock memStore (HasBlock memStore openMem .send sampleBlock).1 .send
            sampleBlock).2 = .returned none) ∧
        (HasBlock memStore openMem .send sampleBlock).1.dupBlocksRecvd
          = openMem.dupBlocksRecvd ∧
        (HasBlock memStore (HasBlock memStore openMem .send sampleBlock).1 .send
          sampleBlock).1.dupBlocksRecvd = openMem.dupBlocksRecvd) :=
  ⟨rfl, fun _ _ => rfl,
    hasBlock_twice memStore openMem .send .send sampleBlock rfl (fun _ _ => rfl)
      (fun _ h => Select.noConfusion h) (fun _ h => Select.noConfusion h)⟩

/-- C7, as stated, fails: on an open exchange over a working blockstore, with both sends on
the reprovide queue proceeding, two `HasBlock` calls with the same block return nil and the
second call leaves the duplicate-blocks counter at 0, where the first call left it. -/
theorem hasBlock_twice_counts_no_duplicate :
    openMem.process = .running ∧
      (HasBlock memStore openMem .send sampleBlock).2 = .returned none ∧
      (HasBlock memStore (HasBlock memStore openMem .send sampleBlock).1 .send
        sampleBlock).2 = .returned none ∧
      (HasBlock memStore openMem .send sampleBlock).1.dupBlocksRecvd = 0 ∧
      (HasBlock memStore (HasBlock memStore openMem .send sampleBlock).1 .send
        sampleBlock).1.dupBlocksRecvd = 0 ∧
      ¬ ((HasBlock memStore openMem .send sampleBlock).1.dupBlocksRecvd <
        (HasBlock memStore (HasBlock memStore openMem .send sampleBlock).1 .send
          sampleBlock).1.dupBlocksRecvd) := by
  decide

end Bitswap

/-! ## wantlist.go: Entries and SortedEntries -/

/-- Method `entrySlice.Less` of wantlist.go, on the two elements at the indices:
`es[i].Priority > es[j].Priority`. -/
def entrySlice.Less (a b : Entry) : Bool := decide (a.Priority > b.Priority)

/-- Insertion of `a` into a list in order: `a` goes before the first element that is not
less than it. -/
def sortInsert {α : Type} (less : α → α → Bool) (a : α) : List α → List α
  | [] => [a]
  | b :: l => if less b a then b :: sortInsert less a l else a :: b :: l

/-- Function `sort.Sort` of the Go library, as an insertion sort that consults only `Less`.
The library promises no order between two elements neither of which is less than the other;
nothing stated below depends on the order this sort gives them. -/
def sortSort {α : Type} (less : α → α → Bool) : List α → List α
  | [] => []
  | a :: l => sortInsert less a (sortSort less l)

namespace Wantlist

/-- The loop `for _, e := range w.set { es = append(es, e) }`, with `es` the slice built so
far, over the pairs of the map in the order `it` in which `range` yields them. -/
def collect : List (Key × Entry) → List Entry → List Entry
  | [], es => es
  | p :: rest, es => collect rest (es ++ [p.2])

/-- Method `Wantlist.Entries` when `range` yields the pairs of the map in the order `it`.
Go leaves that order unspecified. -/
def EntriesIn (it : List (Key × Entry)) : List Entry := collect it []

/-- Method `Wantlist.SortedEntries` when `range` yields the pairs of the map in the order
`it`: collect the entries, then `sort.Sort`. -/
def SortedEntriesIn (it : List (Key × Entry)) : List Entry :=
  sortSort entrySlice.Less (collect it [])

/-- Method `Wantlist.Entries`, with the stored order of the map as the order of `range`. -/
def Entries (w : Wantlist) : List Entry := EntriesIn w.set.entries

/-- Method `Wantlist.SortedEntries`, with the stored order of the map as the order of
`range`. -/
def SortedEntries (w : Wantlist) : List Entry := SortedEntriesIn w.set.entries

/-- The wantlists that `New()` and a sequence of `Add` and `Remove` calls produce. -/
inductive Reachable : Wantlist → Prop where
  | new : Reachable New
  | add (w : Wantlist) (k : Key) (priority : Int) : Reachable w → Reachable (w.Add k priority)
  | remove (w : Wantlist) (k : Key) : Reachable w → Reachable (w.Remove k)

end Wantlist

theorem sortInsert_perm {α : Type} (less : α → α → Bool) (a : α) (l : List α) :
    (sortInsert less a l).Perm (a :: l) := by
  induction l with
  | nil => exact List.Perm.refl _
  | cons b l ih =>
    unfold sortInsert
    split
    · exact ((List.Perm.cons b ih).trans (List.Perm.swap a b l))
    · exact List.Perm.refl _

theorem sortSort_perm {α : Type} (less : α → α → Bool) (l : List α) :
    (sortSort less l).Perm l := by
  induction l with
  | nil => exact List.Perm.refl _
  | cons a l ih =>
    unfold sortSort
    exact (sortInsert_perm less a _).trans (List.Perm.cons a ih)

theorem sortInsert_priorities (a : Entry) (l : List Entry)
    (h : l.Pairwise (fun x y => x.Priority ≥ y.Priority)) :
    (sortInsert entrySlice.Less a l).Pairwise (fun x y => x.Priority ≥ y.Priority) := by
  induction l with
  | nil => simp [sortInsert]
  | cons b l ih =>
    rw [List.pairwise_cons] at h
    unfold sortInsert
    by_cases hb : entrySlice.Less b a = true
    · simp only [hb, if_true, List.pairwise_cons]
      refine ⟨?_, ih h.2⟩
      intro x hx
      have hx' := (sortInsert_perm entrySlice.Less a l).subset hx
      rcases List.mem_cons.1 hx' with rfl | hx'
      · have : b.Priority > x.Priority := by simpa [entrySlice.Less] using hb
        omega
      · exact h.1 x hx'
    · have hab : a.Priority ≥ b.Priority := by
        have : ¬ b.Priority > a.Priority := by simpa [entrySlice.Less] using hb
        omega
      simp only [hb, Bool.false_eq_true, if_false, List.pairwise_cons]
      refine ⟨?_, h.1, h.2⟩
      intro x hx
      rcases List.mem_cons.1 hx with rfl | hx
      · exact hab
      · have := h.1 x hx
        omega

theorem sortSort_priorities (l : List Entry) :
    (sortSort entrySlice.Less l).Pairwise (fun x y => x.Priority ≥ y.Priority) := by
  induction l with
  | nil => simp [sortSort]
  | cons a l ih =>
    unfold sortSort
    exact sortInsert_priorities a _ ih

namespace Wantlist

theorem collect_eq (it : List (Key × Entry)) (es : List Entry) :
    collect it es = es ++ it.map Prod.snd := by
  induction it generalizing es with
  | nil => simp [collect]
  | cons p rest ih => simp [collect, ih]

theorem entriesIn_eq (it : List (Key × Entry)) : EntriesIn it = it.map Prod.snd := by
  simp [EntriesIn, collect_eq]

/-- C11. Whatever the orders in which the two `range` loops yield the pairs of the map,
`SortedEntries()` is a permutation of `Entries()` whose priorities are non-increasing from
the first element to the last. -/
theorem sortedEntries_perm_sorted (w : Wantlist) (it1 it2 : List (Key × Entry))
    (h1 : it1.Perm w.set.entries) (h2 : it2.Perm w.set.entries) :
    (SortedEntriesIn it2).Perm (EntriesIn it1) ∧
      (SortedEntriesIn it2).Pairwise (fun x y => x.Priority ≥ y.Priority) ∧
      w.SortedEntries.Perm w.Entries ∧
      w.SortedEntries.Pairwise (fun x y => x.Priority ≥ y.Priority) := by
  refine ⟨?_, sortSort_priorities _, ?_, sortSort_priorities _⟩
  · unfold SortedEntriesIn
    rw [entriesIn_eq, collect_eq, List.nil_append]
    exact (sortSort_perm _ _).trans ((h2.trans h1.symm).map Prod.snd)
  · unfold SortedEntries SortedEntriesIn Entries
    rw [entriesIn_eq, collect_eq, List.nil_append]
    exact sortSort_perm _ _

/-- A wantlist with three entries of priorities 1, 7 and 3. -/
def sample3 : Wantlist := ((New.Add [1] 1).Add [2] 7).Add [3] 3

theorem sortedEntries_perm_sorted_witness :
    sample3.SortedEntries = [⟨[2], 7⟩, ⟨[3], 3⟩, ⟨[1], 1⟩] ∧
      (SortedEntriesIn sample3.set.entries.reverse).Perm (EntriesIn sample3.set.entries) ∧
      (SortedEntriesIn sample3.set.entries.reverse).Pairwise
        (fun x y => x.Priority ≥ y.Priority) ∧
      sample3.SortedEntries.Perm sample3.Entries ∧
      sample3.SortedEntries.Pairwise (fun x y => x.Priority ≥ y.Priority) :=
  ⟨by decide,
    sortedEntries_perm_sorted sample3 sample3.set.entries sample3.set.entries.reverse
      (List.Perm.refl _) (List.reverse_perm _)⟩

end Wantlist

/-! ## wantlist.go: one entry per contained key -/

namespace GoMap

variable {κ ν : Type} [DecidableEq κ]

theorem mem_setList (k : κ) (v : ν) (l : List (κ × ν)) (x : κ × ν)
    (h : x ∈ setList k v l) : x = (k, v) ∨ x ∈ l := by
  induction l with
  | nil =>
    left
    simpa [setList] using h
  | cons p ps ih =>
    unfold setList at h
    by_cases hk : p.1 = k
    · simp only [hk, if_true, List.mem_cons] at h
      rcases h with h | h
      · exact Or.inl h
      · exact Or.inr (List.mem_cons_of_mem _ h)
    · simp only [hk, if_false, List.mem_cons] at h
      rcases h with h | h
      · exact Or.inr (h ▸ List.mem_cons_self _ _)
      · rcases ih h with h' | h'
        · exact Or.inl h'
        · exact Or.inr (List.mem_cons_of_mem _ h')

theorem find?_of_mem (l : List (κ × ν)) (hnd : (l.map Prod.fst).Nodup) (p : κ × ν)
    (hp : p ∈ l) : l.find? (fun q => decide (q.1 = p.1)) = some p := by
  induction l with
  | nil => simp at hp
  | cons q qs ih =>
    rw [List.map_cons, List.nodup_cons] at hnd
    rcases List.mem_cons.1 hp with rfl | hp'
    · simp [List.find?_cons]
    · have hne : ¬ q.1 = p.1 := by
        intro e
        exact hnd.1 (e ▸ List.mem_map_of_mem Prod.fst hp')
      simp [List.find?_cons, hne, ih hnd.2 hp']

theorem get?_of_mem (m : GoMap κ ν) (p : κ × ν) (hp : p ∈ m.entries) :
    m.get? p.1 = some p.2 := by
  simp [get?, find?_of_mem m.entries m.nodup p hp]

theorem mem_of_get? (m : GoMap κ ν) (k : κ) (v : ν) (h : m.get? k = some v) :
    (k, v) ∈ m.entries := by
  unfold get? at h
  cases hf : m.entries.find? (fun p => decide (p.1 = k)) with
  | none => simp [hf] at h
  | some q =>
    rw [hf] at h
    have hq := List.find?_some hf
    have hm := List.mem_of_find?_eq_some hf
    have hk : q.1 = k := by simpa using hq
    have hv : q.2 = v := by simpa using h
    have : q = (k, v) := Prod.ext hk hv
    exact this ▸ hm

end GoMap

namespace Wantlist

/-- Every pair of the map stores an entry for its own key. -/
def KeysMatch (w : Wantlist) : Prop := ∀ p ∈ w.set.entries, p.2.Key = p.1

theorem reachable_keysMatch (w : Wantlist) (h : Reachable w) : KeysMatch w := by
  induction h with
  | new =>
    intro p hp
    simp [New, GoMap.empty] at hp
  | add w k priority _ ih =>
    cases hg : w.set.get? k with
    | some e =>
      have hadd : w.Add k priority = w := by simp [Add, hg]
      rw [hadd]
      exact ih
    | none =>
      have hadd : w.Add k priority = ⟨w.set.set k ⟨k, priority⟩⟩ := by simp [Add, hg]
      rw [hadd]
      intro p hp
      have hp2 : p ∈ GoMap.setList k (⟨k, priority⟩ : Entry) w.set.entries := hp
      rcases GoMap.mem_setList k _ w.set.entries p hp2 with rfl | hp'
      · rfl
      · exact ih p hp'
  | remove w k _ ih =>
    intro p hp
    exact ih p (List.mem_of_mem_filter hp)

/-- C12. For a wantlist reached from `New()` by `Add` and `Remove` calls, whatever the order
in which `range` yields the pairs of the map: `Entries()` has `Len()` elements, no two of
them share a `Key`, every one of them is what `Contains` returns for its key, and every
contained key has its entry among them. -/
theorem reachable_entries (w : Wantlist) (h : Reachable w) (it : List (Key × Entry))
    (hit : it.Perm w.set.entries) :
    (EntriesIn it).length = w.Len ∧
      ((EntriesIn it).map Entry.Key).Nodup ∧
      (∀ e ∈ EntriesIn it, w.Contains e.Key = (e, true)) ∧
      (∀ k, (w.Contains k).2 = true → (w.Contains k).1 ∈ EntriesIn it) := by
  have hkm := reachable_keysMatch w h
  rw [entriesIn_eq]
  refine ⟨?_, ?_, ?_, ?_⟩
  · simp [Len, GoMap.len, hit.length_eq]
  · have hkeys : (it.map Prod.snd).map Entry.Key = it.map Prod.fst := by
      rw [List.map_map]
      apply List.map_congr_left
      intro p hp
      exact hkm p (hit.subset hp)
    rw [hkeys]
    exact (hit.map Prod.fst).nodup_iff.2 w.set.nodup
  · intro e he
    obtain ⟨p, hp, rfl⟩ := List.mem_map.1 he
    have hp' := hit.subset hp
    have hg := GoMap.get?_of_mem w.set p hp'
    rw [hkm p hp']
    simp [Contains, hg]
  · intro k hk
    cases hg : w.set.get? k with
    | none => simp [Contains, hg] at hk
    | some e =>
      have hm := GoMap.mem_of_get? w.set k e hg
      simp only [Contains, hg]
      exact List.mem_map.2 ⟨(k, e), hit.symm.subset hm, rfl⟩

theorem reachable_entries_witness :
    Reachable sample3 ∧ sample3.Entries = [⟨[1], 1⟩, ⟨[2], 7⟩, ⟨[3], 3⟩] ∧
      ((EntriesIn sample3.set.entries).length = sample3.Len ∧
        ((EntriesIn sample3.set.entries).map Entry.Key).Nodup ∧
        (∀ e ∈ EntriesIn sample3.set.entries, sample3.Contains e.Key = (e, true)) ∧
        (∀ k, (sample3.Contains k).2 = true →
          (sample3.Contains k).1 ∈ EntriesIn sample3.set.entries)) :=
  ⟨Reachable.add _ _ _ (Reachable.add _ _ _ (Reachable.add _ _ _ Reachable.new)), by decide,
    reachable_entries sample3
      (Reachable.add _ _ _ (Reachable.add _ _ _ (Reachable.add _ _ _ Reachable.new)))
      sample3.set.entries (List.Perm.refl _)⟩

end Wantlist

/-! ## blocks.go -/

/-- Function `NewBlock` of blocks.go. `Hash` is the function `u.Hash` of package util, which
is not part of the sources. -/
def NewBlock (Hash : Bytes → Bytes) (data : Bytes) : Block :=
  { Data := data, Multihash := Hash data }

/-- Function `NewBlockWithHash` of blocks.go, returning the pair `(block, err)`. `Debug` is
the variable `u.Debug`; the comparison `string(chk) != string(h)` compares the bytes. -/
def NewBlockWithHash (Hash : Bytes → Bytes) (Debug : Bool) (data h : Bytes) :
    Option Block × Option Error :=
  if Debug then
    let chk := Hash data
    if chk ≠ h then (none, some "Data did not match given hash!")
    else (some { Data := data, Multihash := h }, none)
  else (some { Data := data, Multihash := h }, none)

/-- C13. `NewBlock(data)` has `Data = data` and `Multihash = Hash(data)`, so its `Key()` is
`Key(Hash(data))`. -/
theorem newBlock_spec (Hash : Bytes → Bytes) (data : Bytes) :
    (NewBlock Hash data).Data = data ∧
      (NewBlock Hash data).Multihash = Hash data ∧
      (NewBlock Hash data).Key = (Hash data : Key) ∧
      (NewBlock Hash data).Key = (Block.mk (Hash data) data).Key := by
  exact ⟨rfl, rfl, rfl, rfl⟩

/-- C14. With `u.Debug` true, `NewBlockWithHash(data, h)` returns a nil block and a non-nil
error exactly when `Hash(data)` differs from `h`, and otherwise returns a nil error and the
block with `Data = data` and `Multihash = h`. -/
theorem newBlockWithHash_debug (Hash : Bytes → Bytes) (data h : Bytes) :
    (((NewBlockWithHash Hash true data h).1 = none ∧
        (NewBlockWithHash Hash true data h).2 ≠ none) ↔ Hash data ≠ h) ∧
      ((NewBlockWithHash Hash true data h).2 ≠ none ↔ Hash data ≠ h) ∧
      ((NewBlockWithHash Hash true data h).2 = none →
        ∃ b : Block, (NewBlockWithHash Hash true data h).1 = some b ∧
          b.Data = data ∧ b.Multihash = h) := by
  by_cases hh : Hash data = h
  · simp [NewBlockWithHash, hh]
  · simp [NewBlockWithHash, hh]

/-- C15. With `u.Debug` false, `NewBlockWithHash(data, h)` returns a nil error and the block
with `Data = data` and `Multihash = h`, for every `data` and `h`; and with `u.Debug` true or
false, `NewBlockWithHash(data, Hash(data))` returns a nil error and the block
`NewBlock(data)`. -/
theorem newBlockWithHash_nodebug (Hash : Bytes → Bytes) (data h : Bytes) (Debug : Bool) :
    NewBlockWithHash Hash false data h = (some { Data := data, Multihash := h }, none) ∧
      NewBlockWithHash Hash Debug data (Hash data) = (some (NewBlock Hash data), none) := by
  constructor
  · simp [NewBlockWithHash]
  · cases Debug <;> simp [NewBlockWithHash, NewBlock]

/-- A stand-in for `u.Hash` in the examples: the length of the data and its first byte. -/
def sampleHash (data : Bytes) : Bytes := [UInt8.ofNat data.length, data.headD 0]

/-- C15 at a hash that differs from the hash of the data: accepted when `u.Debug` is false,
refused when it is true. -/
theorem newBlockWithHash_nodebug_witness :
    sampleHash [7, 8] ≠ [1] ∧
      NewBlockWithHash sampleHash false [7, 8] [1]
        = (some { Data := [7, 8], Multihash := [1] }, none) ∧
      NewBlockWithHash sampleHash true [7, 8] [1]
        = (none, some "Data did not match given hash!") ∧
      NewBlockWithHash sampleHash true [7, 8] (sampleHash [7, 8])
        = (some (NewBlock sampleHash [7, 8]), none) :=
  ⟨by decide, (newBlockWithHash_nodebug sampleHash [7, 8] [1] true).1, by decide,
    (newBlockWithHash_nodebug sampleHash [7, 8] [1] true).2⟩

/-! ## providers.go -/

/-- Go `time.Time`, as the nanoseconds since an epoch. -/
abbrev Time := Int

/-- The largest `time.Duration`, `1<<63 - 1` nanoseconds. -/
def maxDuration : Int := 9223372036854775807

/-- The smallest `time.Duration`, `-1 << 63` nanoseconds. -/
def minDuration : Int := -9223372036854775808

/-- Method `Time.Sub` of the Go library: the duration `t - u` in nanoseconds, or the largest
or smallest duration when the difference does not fit. -/
def Time.Sub (t u : Time) : Int :=
  if t - u > maxDuration then maxDuration
  else if t - u < minDuration then minDuration
  else t - u

/-- Constant `time.Hour`, in nanoseconds. -/
def Hour : Int := 3600000000000

namespace GoMap

variable {κ ν : Type} [DecidableEq κ]

/-- A `range` loop over a map of pointers that updates what each pointer refers to: the
value under `k` becomes `f k v`. -/
def mapVals (m : GoMap κ ν) (f : κ → ν → ν) : GoMap κ ν :=
  ⟨m.entries.map (fun p => (p.1, f p.1 p.2)), by
    have h : (m.entries.map (fun p => (p.1, f p.1 p.2))).map Prod.fst
        = m.entries.map Prod.fst := by
      rw [List.map_map]
      rfl
    rw [h]
    exact m.nodup⟩

end GoMap

/-- Struct `providerSet` of providers.go. -/
structure providerSet where
  providers : List PeerID
  set : GoMap PeerID Time

/-- Struct `ProviderManager` of providers.go, without its channels; `localKeys` is the
field `local`. -/
structure ProviderManager where
  providers : GoMap Key providerSet
  localKeys : GoMap Key Unit
  lpeer : PeerID

/-- Function `newProviderSet`. -/
def newProviderSet : providerSet := { providers := [], set := GoMap.empty }

/-- Method `providerSet.Add`; `now` is the value of `time.Now()`. -/
def providerSet.Add (ps : providerSet) (now : Time) (p : PeerID) : providerSet :=
  let providers :=
    match ps.set.get? p with
    | some _ => ps.providers
    | none => ps.providers ++ [p]
  { providers := providers, set := ps.set.set p now }

/-- The inner loop of the `tick.C` case of `run` over the pairs `it` that `range provs.set`
still has to yield, with the current map and the slice `filtered`; `now p` is the value of
`time.Now()` when the peer `p` is examined. -/
def sweepLoop (now : PeerID → Time) :
    List (PeerID × Time) → GoMap PeerID Time → List PeerID → GoMap PeerID Time × List PeerID
  | [], set, filtered => (set, filtered)
  | pt :: rest, set, filtered =>
    if Time.Sub (now pt.1) pt.2 > Hour * 24 then sweepLoop now rest (set.delete pt.1) filtered
    else sweepLoop now rest set (filtered ++ [pt.1])

/-- The body of the outer loop of the `tick.C` case of `run` for one provider set: the
inner loop, then `provs.providers = filtered`. The pairs are examined in the stored order of
the map. -/
def providerSet.sweep (now : PeerID → Time) (provs : providerSet) : providerSet :=
  { providers := (sweepLoop now provs.set.entries provs.set []).2,
    set := (sweepLoop now provs.set.entries provs.set []).1 }

namespace ProviderManager

/-- Function `NewProviderManager`, without the process it starts: empty maps, and `lpeer`
left at its zero value (the parameter `local` is not stored). -/
def NewProviderManager (_local : PeerID) : ProviderManager :=
  { providers := GoMap.empty, localKeys := GoMap.empty, lpeer := [] }

/-- The case `np := <-pm.newprovs` of `run`; `now` is the value of `time.Now()` in
`provs.Add`. -/
def runNewprovs (pm : ProviderManager) (now : Time) (k : Key) (val : PeerID) :
    ProviderManager :=
  let localKeys := if val = pm.lpeer then pm.localKeys.set k () else pm.localKeys
  let provs :=
    match pm.providers.get? k with
    | some provs => provs
    | none => newProviderSet
  { pm with localKeys := localKeys, providers := pm.providers.set k (provs.Add now val) }

/-- The case `gp := <-pm.getprovs` of `run`: the slice sent on `gp.resp`, which
`GetProviders` returns. -/
def runGetprovs (pm : ProviderManager) (k : Key) : List PeerID :=
  match pm.providers.get? k with
  | some provs => provs.providers
  | none => []

/-- The case `lc := <-pm.getlocal` of `run`: the slice sent on `lc`, which `GetLocal`
returns. -/
def runGetlocal (pm : ProviderManager) : List Key := pm.localKeys.entries.map Prod.fst

/-- The case `<-tick.C` of `run`, the periodic sweep; `now k p` is the value of
`time.Now()` when the peer `p` of the provider set of `k` is examined. -/
def runTick (pm : ProviderManager) (now : Key → PeerID → Time) : ProviderManager :=
  { pm with providers := pm.providers.mapVals (fun k provs => provs.sweep (now k)) }

end ProviderManager

/-! ## The periodic sweep of the provider manager -/

/-- Whether the sweep drops the pair `pt`: `time.Now().Sub(t) > time.Hour*24`. -/
def sweepExpired (now : PeerID → Time) (pt : PeerID × Time) : Bool :=
  decide (Time.Sub (now pt.1) pt.2 > Hour * 24)

theorem timeSub_gt_day (a b : Int) : Time.Sub a b > Hour * 24 ↔ a - b > Hour * 24 := by
  unfold Time.Sub
  by_cases h1 : a - b > maxDuration
  · rw [if_pos h1]
    unfold maxDuration at h1
    unfold maxDuration Hour
    omega
  · rw [if_neg h1]
    by_cases h2 : a - b < minDuration
    · rw [if_pos h2]
      unfold minDuration at h2
      unfold minDuration Hour
      omega
    · rw [if_neg h2]

theorem sweepExpired_false_iff (now : PeerID → Time) (p : PeerID) (t : Time) :
    sweepExpired now (p, t) = false ↔ now p - t ≤ Hour * 24 := by
  unfold sweepExpired
  rw [decide_eq_false_iff_not, timeSub_gt_day]
  exact not_lt

namespace GoMap

variable {κ ν : Type} [DecidableEq κ]

theorem get?_mapVals (m : GoMap κ ν) (f : κ → ν → ν) (k : κ) :
    (m.mapVals f).get? k = (m.get? k).map (f k) := by
  unfold get? mapVals
  simp only
  induction m.entries with
  | nil => rfl
  | cons p ps ih =>
    by_cases h : p.1 = k
    · simp [List.find?_cons, h]
    · simp only [List.map_cons, List.find?_cons, h, decide_False]
      exact ih

end GoMap

theorem sweepLoop_filtered (now : PeerID → Time) (it : List (PeerID × Time))
    (set : GoMap PeerID Time) (filtered : List PeerID) :
    (sweepLoop now it set filtered).2 =
      filtered ++ (it.filter (fun pt => !sweepExpired now pt)).map Prod.fst := by
  induction it generalizing set filtered with
  | nil => simp [sweepLoop]
  | cons pt rest ih =>
    unfold sweepLoop
    by_cases h : Time.Sub (now pt.1) pt.2 > Hour * 24
    · simp [h, ih, sweepExpired]
    · simp [h, ih, sweepExpired]

theorem sweepLoop_get? (now : PeerID → Time) (it : List (PeerID × Time))
    (set : GoMap PeerID Time) (filtered : List PeerID) (p : PeerID) :
    (sweepLoop now it set filtered).1.get? p =
      if it.any (fun pt => decide (pt.1 = p) && sweepExpired now pt) then none
      else set.get? p := by
  induction it generalizing set filtered with
  | nil => simp [sweepLoop]
  | cons pt rest ih =>
    unfold sweepLoop
    by_cases h : Time.Sub (now pt.1) pt.2 > Hour * 24
    · have he : sweepExpired now pt = true := by simp [sweepExpired, h]
      simp only [h, if_true, ih, List.any_cons, he, Bool.and_true]
      by_cases hp : pt.1 = p
      · simp [hp, GoMap.get?_delete_self]
      · have hne : p ≠ pt.1 := fun e => hp e.symm
        have hd : decide (pt.1 = p) = false := decide_eq_false hp
        rw [hd, Bool.false_or, GoMap.get?_delete_ne set pt.1 p hne]
    · have he : sweepExpired now pt = false := by simp [sweepExpired, h]
      simp only [h, if_false, ih, List.any_cons, he, Bool.and_false, Bool.false_or]

theorem any_expired_of_get? (now : PeerID → Time) (set : GoMap PeerID Time) (p : PeerID)
    (t : Time) (ht : set.get? p = some t) :
    set.entries.any (fun pt => decide (pt.1 = p) && sweepExpired now pt)
      = sweepExpired now (p, t) := by
  have hmem := GoMap.mem_of_get? set p t ht
  cases he : sweepExpired now (p, t) with
  | true =>
    rw [List.any_eq_true]
    exact ⟨(p, t), hmem, by simp [he]⟩
  | false =>
    rw [List.any_eq_false]
    intro pt hpt hc
    simp only [Bool.and_eq_true, decide_eq_true_eq] at hc
    have hg := GoMap.get?_of_mem set pt hpt
    rw [hc.1, ht] at hg
    have hpt' : pt = (p, t) := Prod.ext hc.1 (Option.some.inj hg).symm
    rw [hpt', he] at hc
    exact absurd hc.2 (by simp)

theorem any_expired_of_absent (now : PeerID → Time) (set : GoMap PeerID Time) (p : PeerID)
    (ht : set.get? p = none) :
    set.entries.any (fun pt => decide (pt.1 = p) && sweepExpired now pt) = false := by
  rw [List.any_eq_false]
  intro pt hpt hc
  simp only [Bool.and_eq_true, decide_eq_true_eq] at hc
  have hg := GoMap.get?_of_mem set pt hpt
  rw [hc.1, ht] at hg
  exact absurd hg (by simp)

theorem mem_sweep_providers (now : PeerID → Time) (provs : providerSet) (p : PeerID) :
    p ∈ (provs.sweep now).providers ↔
      ∃ t, provs.set.get? p = some t ∧ sweepExpired now (p, t) = false := by
  unfold providerSet.sweep
  simp only [sweepLoop_filtered, List.nil_append, List.mem_map, List.mem_filter,
    Bool.not_eq_true']
  constructor
  · rintro ⟨pt, ⟨hmem, hexp⟩, rfl⟩
    exact ⟨pt.2, GoMap.get?_of_mem provs.set pt hmem, hexp⟩
  · rintro ⟨t, ht, hexp⟩
    exact ⟨(p, t), ⟨GoMap.mem_of_get? provs.set p t ht, hexp⟩, rfl⟩

namespace ProviderManager

/-- C16. The periodic sweep, for a key `k` with provider set `provs` and a peer `p` recorded
in it with timestamp `t`, `now k p` being the time read when `p` is examined: `p` stays in
the timestamp map, with its timestamp, and in the list that `GetProviders` returns exactly
when `t` is at most 24 hours before that time, and is removed from both otherwise. A peer
that was not recorded is not recorded afterwards. -/
theorem tick_sweep (pm : ProviderManager) (now : Key → PeerID → Time) (k : Key)
    (provs : providerSet) (p : PeerID) (t : Time)
    (hk : pm.providers.get? k = some provs) (ht : provs.set.get? p = some t) :
    (pm.runTick now).providers.get? k = some (provs.sweep (now k)) ∧
      (pm.runTick now).runGetprovs k = (provs.sweep (now k)).providers ∧
      ((provs.sweep (now k)).set.get? p ≠ none ↔ now k p - t ≤ Hour * 24) ∧
      (p ∈ (pm.runTick now).runGetprovs k ↔ now k p - t ≤ Hour * 24) ∧
      (now k p - t ≤ Hour * 24 → (provs.sweep (now k)).set.get? p = some t) ∧
      (now k p - t > Hour * 24 →
        (provs.sweep (now k)).set.get? p = none ∧ p ∉ (pm.runTick now).runGetprovs k) ∧
      (∀ q, provs.set.get? q = none →
        (provs.sweep (now k)).set.get? q = none ∧ q ∉ (pm.runTick now).runGetprovs k) := by
  have hget : (pm.runTick now).providers.get? k = some (provs.sweep (now k)) := by
    simp [runTick, GoMap.get?_mapVals, hk]
  have hprovs : (pm.runTick now).runGetprovs k = (provs.sweep (now k)).providers := by
    simp [runGetprovs, hget]
  have hset : (provs.sweep (now k)).set.get? p =
      if sweepExpired (now k) (p, t) then none else some t := by
    unfold providerSet.sweep
    simp only [sweepLoop_get?, any_expired_of_get? (now k) provs.set p t ht, ht]
  have hmem : p ∈ (provs.sweep (now k)).providers ↔ sweepExpired (now k) (p, t) = false := by
    rw [mem_sweep_providers]
    constructor
    · rintro ⟨t', ht', he⟩
      rw [ht] at ht'
      rw [Option.some.inj ht']
      exact he
    · intro he
      exact ⟨t, ht, he⟩
  have hiff := sweepExpired_false_iff (now k) p t
  refine ⟨hget, hprovs, ?_, ?_, ?_, ?_, ?_⟩
  · rw [hset, ← hiff]
    cases sweepExpired (now k) (p, t) <;> simp
  · rw [hprovs, hmem, hiff]
  · intro hle
    rw [hset, hiff.2 hle]
    simp
  · intro hgt
    have he : sweepExpired (now k) (p, t) = true := by
      cases h : sweepExpired (now k) (p, t) with
      | true => rfl
      | false => exact absurd (hiff.1 h) (not_le.2 hgt)
    refine ⟨by rw [hset, he]; simp, ?_⟩
    rw [hprovs, hmem, he]
    simp
  · intro q hq
    refine ⟨?_, ?_⟩
    · unfold providerSet.sweep
      simp only [sweepLoop_get?, any_expired_of_absent (now k) provs.set q hq, hq]
      simp
    · rw [hprovs, mem_sweep_providers]
      rintro ⟨t', ht', -⟩
      rw [hq] at ht'
      exact absurd ht' (by simp)

end ProviderManager

/-- A provider manager that recorded, for the key `[1]`, the peer `[2]` at time 0 and the
peer `[3]` 100 hours later. -/
def samplePM : ProviderManager :=
  ((ProviderManager.NewProviderManager [9]).runNewprovs 0 [1] [2]).runNewprovs
    (100 * Hour) [1] [3]

/-- The provider set of `samplePM` for the key `[1]`. -/
def sampleProvs : providerSet :=
  (newProviderSet.Add 0 [2]).Add (100 * Hour) [3]

namespace ProviderManager

/-- A sweep of `samplePM` 110 hours after time 0 keeps the peer `[3]`, seen 10 hours before,
and drops the peer `[2]`, seen 110 hours before. -/
theorem tick_sweep_witness :
    samplePM.providers.get? [1] = some sampleProvs ∧
      sampleProvs.set.get? [3] = some (100 * Hour) ∧
      sampleProvs.set.get? [2] = some 0 ∧
      (samplePM.runTick (fun _ _ => 110 * Hour)).runGetprovs [1] = [[3]] ∧
      ([3] ∈ (samplePM.runTick (fun _ _ => 110 * Hour)).runGetprovs [1] ↔
        110 * Hour - 100 * Hour ≤ Hour * 24) ∧
      ([2] ∈ (samplePM.runTick (fun _ _ => 110 * Hour)).runGetprovs [1] ↔
        110 * Hour - 0 ≤ Hour * 24) :=
  ⟨rfl, by decide, by decide, by decide,
    (tick_sweep samplePM (fun _ _ => 110 * Hour) [1] sampleProvs [3] (100 * Hour)
      rfl (by decide)).2.2.2.1,
    (tick_sweep samplePM (fun _ _ => 110 * Hour) [1] sampleProvs [2] 0
      rfl (by decide)).2.2.2.1⟩

end ProviderManager

/-! ## The LRU datastore of go-datastore/lru -/

/-- Variable `ds.ErrNotFound` of go-datastore. -/
def ErrNotFound : Error := "datastore: key not found"

/-- Modelled from the spec: the LRU datastore of package go-datastore/lru, of which only the
test is part of the sources: a fixed-capacity structure of keyed values that retains nothing
beyond its capacity and gives up the least recently used value first. `items` holds the
pairs, the most recently used first. -/
structure LRUDatastore (ν : Type) where
  capacity : Nat
  items : List (String × ν)

namespace LRUDatastore

variable {ν : Type}

/-- Modelled from the spec: `lru.NewDatastore(capacity)`, an empty structure of the given
capacity. -/
def NewDatastore (capacity : Nat) : LRUDatastore ν := { capacity := capacity, items := [] }

/-- Modelled from the spec: `Put(key, value)` stores the value as the most recently used and
evicts the least recently used pairs beyond the capacity. It returns no error. -/
def Put (d : LRUDatastore ν) (k : String) (v : ν) : LRUDatastore ν :=
  { d with items := ((k, v) :: d.items.filter (fun p => !decide (p.1 = k))).take d.capacity }

/-- Modelled from the spec: `Get(key)` returns the stored value and a nil error, and makes
the pair the most recently used; for a key that is not stored it returns a nil value and
`ErrNotFound`. The result is the datastore afterwards and the pair `(value, err)`. -/
def Get (d : LRUDatastore ν) (k : String) : LRUDatastore ν × Option ν × Option Error :=
  match d.items.find? (fun p => decide (p.1 = k)) with
  | some p =>
    ({ d with items := p :: d.items.filter (fun q => !decide (q.1 = k)) }, some p.2, none)
  | none => (d, none, some ErrNotFound)

/-- A sequence of `Put` calls. -/
def Puts (d : LRUDatastore ν) : List (String × ν) → LRUDatastore ν
  | [] => d
  | p :: rest => Puts (d.Put p.1 p.2) rest

/-- A sequence of `Get` calls, keeping the datastore. -/
def Gets (d : LRUDatastore ν) : List String → LRUDatastore ν
  | [] => d
  | k :: rest => Gets (d.Get k).1 rest

theorem find?_filter_ne (k k' : String) (l : List (String × ν)) (hne : k' ≠ k) :
    (l.filter (fun p => !decide (p.1 = k))).find? (fun p => decide (p.1 = k')) =
      l.find? (fun p => decide (p.1 = k')) := by
  induction l with
  | nil => rfl
  | cons p ps ih =>
    by_cases h : p.1 = k
    · have h' : ¬ p.1 = k' := fun e => hne (e.symm.trans h)
      simp [List.filter_cons, h, List.find?_cons, Ne.symm hne, ih]
    · simp [List.filter_cons, h, List.find?_cons, ih]

/-- A `Get` changes the result of no later `Get`. -/
theorem find?_get (d : LRUDatastore ν) (k k' : String) :
    (d.Get k).1.items.find? (fun p => decide (p.1 = k')) =
      d.items.find? (fun p => decide (p.1 = k')) := by
  unfold Get
  cases hf : d.items.find? (fun p => decide (p.1 = k)) with
  | none => rfl
  | some p =>
    have hpk : p.1 = k := by simpa using List.find?_some hf
    by_cases hk : k' = k
    · subst hk
      simp [List.find?_cons, hpk, hf]
    · have hne : ¬ p.1 = k' := fun e => hk (e.symm.trans hpk)
      simp only [List.find?_cons, hne, decide_False]
      exact find?_filter_ne k k' d.items hk

theorem find?_gets (d : LRUDatastore ν) (reads : List String) (k' : String) :
    (d.Gets reads).items.find? (fun p => decide (p.1 = k')) =
      d.items.find? (fun p => decide (p.1 = k')) := by
  induction reads generalizing d with
  | nil => rfl
  | cons k rest ih =>
    unfold Gets
    rw [ih, find?_get]

theorem capacity_get (d : LRUDatastore ν) (k : String) : (d.Get k).1.capacity = d.capacity := by
  unfold Get
  split <;> rfl

theorem capacity_gets (d : LRUDatastore ν) (reads : List String) :
    (d.Gets reads).capacity = d.capacity := by
  induction reads generalizing d with
  | nil => rfl
  | cons k rest ih =>
    unfold Gets
    rw [ih, capacity_get]

theorem take_append_take {α : Type} (n : Nat) (a b : List α) :
    (a ++ b.take n).take n = (a ++ b).take n := by
  rw [List.take_append_eq_append_take, List.take_append_eq_append_take, List.take_take]
  congr 2
  omega

theorem filter_ne_of_not_mem (k : String) (l : List (String × ν))
    (h : k ∉ l.map Prod.fst) : l.filter (fun p => !decide (p.1 = k)) = l := by
  rw [List.filter_eq_self]
  intro p hp
  have : p.1 ≠ k := fun e => h (e ▸ List.mem_map_of_mem Prod.fst hp)
  simp [this]

theorem capacity_put (d : LRUDatastore ν) (k : String) (v : ν) :
    (d.Put k v).capacity = d.capacity := rfl

/-- Puts of at least one pair, with distinct keys none of which is stored yet: the new pairs
come first, the newest in front, and the whole is cut at the capacity. -/
theorem puts_fresh (l : List (String × ν)) :
    ∀ d : LRUDatastore ν, l ≠ [] → (l.map Prod.fst).Nodup →
      (∀ k ∈ l.map Prod.fst, k ∉ d.items.map Prod.fst) →
      (d.Puts l).capacity = d.capacity ∧
      (d.Puts l).items = (l.reverse ++ d.items).take d.capacity := by
  induction l with
  | nil =>
    intro d hne
    exact absurd rfl hne
  | cons p rest ih =>
    intro d _ hnd hfresh
    rw [List.map_cons, List.nodup_cons] at hnd
    have hp : p.1 ∉ d.items.map Prod.fst := hfresh p.1 (by simp)
    have hput : (d.Put p.1 p.2).items = (p :: d.items).take d.capacity := by
      simp [Put, filter_ne_of_not_mem p.1 d.items hp]
    cases rest with
    | nil =>
      refine ⟨rfl, ?_⟩
      simp [Puts, hput]
    | cons q rest' =>
      have hfresh' : ∀ k ∈ (q :: rest').map Prod.fst,
          k ∉ (d.Put p.1 p.2).items.map Prod.fst := by
        intro k hk hmem
        rw [hput] at hmem
        have hsub := (List.take_sublist d.capacity (p :: d.items)).map Prod.fst
        have hmem' := hsub.subset hmem
        rw [List.map_cons, List.mem_cons] at hmem'
        rcases hmem' with h | h
        · exact hnd.1 (h ▸ hk)
        · exact hfresh k (List.mem_cons_of_mem _ hk) h
      obtain ⟨hcap, hitems⟩ := ih (d.Put p.1 p.2) (List.cons_ne_nil q rest') hnd.2 hfresh'
      refine ⟨by rw [Puts, hcap, capacity_put], ?_⟩
      rw [Puts, hitems, hput, capacity_put, take_append_take]
      simp

/-- The keys stored after a `Put` are the key put or keys stored before. -/
theorem keys_put (d : LRUDatastore ν) (k : String) (v : ν) (x : String)
    (hx : x ∈ (d.Put k v).items.map Prod.fst) : x = k ∨ x ∈ d.items.map Prod.fst := by
  unfold Put at hx
  have hsub := ((List.take_sublist d.capacity
    ((k, v) :: d.items.filter (fun p => !decide (p.1 = k)))).map Prod.fst).subset hx
  rw [List.map_cons, List.mem_cons] at hsub
  rcases hsub with h | h
  · exact Or.inl h
  · exact Or.inr (((List.filter_sublist d.items).map Prod.fst).subset h)

theorem keys_puts (l : List (String × ν)) :
    ∀ (d : LRUDatastore ν) (x : String), x ∈ (d.Puts l).items.map Prod.fst →
      x ∈ l.map Prod.fst ∨ x ∈ d.items.map Prod.fst := by
  induction l with
  | nil =>
    intro d x hx
    exact Or.inr hx
  | cons p rest ih =>
    intro d x hx
    rcases ih (d.Put p.1 p.2) x hx with h | h
    · exact Or.inl (List.mem_cons_of_mem _ h)
    · rcases keys_put d p.1 p.2 x h with h' | h'
      · exact Or.inl (by simp [h'])
      · exact Or.inr h'

theorem keys_gets (d : LRUDatastore ν) (reads : List String) (x : String)
    (hx : x ∈ (d.Gets reads).items.map Prod.fst) : x ∈ d.items.map Prod.fst := by
  by_contra hc
  have hnone := (GoMap.find?_none_iff x d.items).2 hc
  rw [← find?_gets d reads x] at hnone
  exact (GoMap.find?_none_iff x (d.Gets reads).items).1 hnone hx

/-- What `Get` returns, from the pair that `find?` yields. -/
theorem get_of_find? (d : LRUDatastore ν) (k : String) :
    (d.Get k).2 =
      match d.items.find? (fun p => decide (p.1 = k)) with
      | some p => (some p.2, none)
      | none => (none, some ErrNotFound) := by
  unfold Get
  split <;> rfl

end LRUDatastore

namespace LRUDatastore

variable {ν : Type}

theorem capacity_puts (l : List (String × ν)) :
    ∀ d : LRUDatastore ν, (d.Puts l).capacity = d.capacity := by
  induction l with
  | nil => intro d; rfl
  | cons p rest ih =>
    intro d
    rw [Puts, ih, capacity_put]

/-- As many puts of fresh, distinct keys as the capacity leave exactly the pairs put. -/
theorem puts_full (d : LRUDatastore ν) (l : List (String × ν))
    (hlen : l.length = d.capacity) (hnd : (l.map Prod.fst).Nodup)
    (hfresh : ∀ k ∈ l.map Prod.fst, k ∉ d.items.map Prod.fst) (p : String × ν)
    (hp : p ∈ l) : (d.Puts l).items = l.reverse := by
  have hne : l ≠ [] := List.ne_nil_of_mem hp
  rw [(puts_fresh l d hne hnd hfresh).2]
  exact List.take_left' (by rw [List.length_reverse, hlen])

theorem find?_reverse_of_mem (l : List (String × ν)) (hnd : (l.map Prod.fst).Nodup)
    (p : String × ν) (hp : p ∈ l) :
    l.reverse.find? (fun q => decide (q.1 = p.1)) = some p := by
  apply GoMap.find?_of_mem
  · rw [List.map_reverse]
    exact List.nodup_reverse.2 hnd
  · exact List.mem_reverse.2 hp

/-- C18. For an LRU datastore of capacity `n`: after putting `n` distinct keys, every `Get`
of one of them returns its value and a nil error, also after other `Get` calls; after then
putting `n` further distinct keys, every `Get` of an original key returns a nil value and
`ErrNotFound`, and every `Get` of a new key returns its value, also after other `Get`
calls. -/
theorem lru_basic (n : Nat) (first second : List (String × ν)) (reads reads2 : List String)
    (h1 : first.length = n) (h2 : second.length = n)
    (hd1 : (first.map Prod.fst).Nodup) (hd2 : (second.map Prod.fst).Nodup)
    (hdisj : ∀ k ∈ second.map Prod.fst, k ∉ first.map Prod.fst) :
    (∀ p ∈ first,
        ((((NewDatastore n : LRUDatastore ν).Puts first).Gets reads).Get p.1).2
          = (some p.2, none)) ∧
      (∀ p ∈ first,
        ((((((NewDatastore n : LRUDatastore ν).Puts first).Gets reads).Puts second).Gets
          reads2).Get p.1).2 = (none, some ErrNotFound)) ∧
      (∀ p ∈ second,
        ((((((NewDatastore n : LRUDatastore ν).Puts first).Gets reads).Puts second).Gets
          reads2).Get p.1).2 = (some p.2, none)) := by
  have hkeys1 : ∀ x, x ∈ (((NewDatastore n : LRUDatastore ν).Puts first).Gets
      reads).items.map Prod.fst → x ∈ first.map Prod.fst := by
    intro x hx
    rcases keys_puts first (NewDatastore n) x (keys_gets _ reads x hx) with h | h
    · exact h
    · simp [NewDatastore] at h
  have hcap1 : (((NewDatastore n : LRUDatastore ν).Puts first).Gets reads).capacity = n := by
    rw [capacity_gets, capacity_puts]
    rfl
  have hfresh2 : ∀ k ∈ second.map Prod.fst,
      k ∉ (((NewDatastore n : LRUDatastore ν).Puts first).Gets reads).items.map Prod.fst :=
    fun k hk hmem => hdisj k hk (hkeys1 k hmem)
  refine ⟨?_, ?_, ?_⟩
  · intro p hp
    have hitems := puts_full (NewDatastore n : LRUDatastore ν) first h1 hd1
      (by simp [NewDatastore]) p hp
    rw [get_of_find?, find?_gets, hitems, find?_reverse_of_mem first hd1 p hp]
  · intro p hp
    have hne : second ≠ [] := by
      intro h0
      rw [h0] at h2
      rw [← h2] at h1
      exact List.ne_nil_of_mem hp (List.length_eq_zero.1 h1)
    obtain ⟨q, hq⟩ := List.exists_mem_of_ne_nil second hne
    have hitems := puts_full _ second (h2.trans hcap1.symm) hd2 hfresh2 q hq
    have hnone : second.reverse.find? (fun x => decide (x.1 = p.1)) = none := by
      rw [GoMap.find?_none_iff, List.map_reverse, List.mem_reverse]
      intro hmem
      exact hdisj p.1 hmem (List.mem_map_of_mem Prod.fst hp)
    rw [get_of_find?, find?_gets, hitems, hnone]
  · intro p hp
    have hitems := puts_full _ second (h2.trans hcap1.symm) hd2 hfresh2 p hp
    rw [get_of_find?, find?_gets, hitems, find?_reverse_of_mem second hd2 p hp]

/-- C18 at capacity 2 with the values 0 and 1 under the keys "0", "1" and then "2", "3". -/
theorem lru_basic_witness :
    ((((NewDatastore 2 : LRUDatastore Nat).Puts [("0", 0), ("1", 1)]).Gets ["0", "1"]).Get
        "0").2 = (some 0, none) ∧
      ((((((NewDatastore 2 : LRUDatastore Nat).Puts [("0", 0), ("1", 1)]).Gets
        ["0", "1"]).Puts [("2", 0), ("3", 1)]).Gets []).Get "0").2
          = (none, some ErrNotFound) ∧
      ((((((NewDatastore 2 : LRUDatastore Nat).Puts [("0", 0), ("1", 1)]).Gets
        ["0", "1"]).Puts [("2", 0), ("3", 1)]).Gets []).Get "3").2 = (some 1, none) :=
  ⟨(lru_basic 2 [("0", 0), ("1", 1)] [("2", 0), ("3", 1)] ["0", "1"] [] rfl rfl
      (by decide) (by decide) (by decide)).1 ("0", 0) (by decide),
    (lru_basic 2 [("0", 0), ("1", 1)] [("2", 0), ("3", 1)] ["0", "1"] [] rfl rfl
      (by decide) (by decide) (by decide)).2.1 ("0", 0) (by decide),
    (lru_basic 2 [("0", 0), ("1", 1)] [("2", 0), ("3", 1)] ["0", "1"] [] rfl rfl
      (by decide) (by decide) (by decide)).2.2 ("3", 1) (by decide)⟩

end LRUDatastore

/-! ## standard.go: SendMessage -/

/-- Type `dhtpb.Message_MessageType`: the message types of the DHT protocol. Package
routing/dht/pb is not part of the sources; standard.go names `ADD_PROVIDER` and
`PUT_VALUE`. -/
inductive MessageType where
  | PUT_VALUE
  | GET_VALUE
  | ADD_PROVIDER
  | GET_PROVIDERS
  | FIND_NODE
  | PING
  deriving DecidableEq, Repr

/-- Type `dhtpb.Message` as far as `SendMessage` reads it: `GetType()` and `GetKey()`. -/
structure Message where
  MsgType : MessageType
  Key : Bytes
  deriving DecidableEq, Repr

/-- Struct `standard` of standard.go as far as `SendMessage` reads it. -/
structure standard where
  remoteIDs : List PeerID

/-- What the host and the stream answer to the calls of the `i`-th `sendMessage` call, made
for the remote `remote`: the errors of `px.Host.Connect`, `px.Host.NewStream` and
`pbw.WriteMsg`. -/
structure HostCalls where
  Connect : Nat → PeerID → Option Error
  NewStream : Nat → PeerID → Option Error
  WriteMsg : Nat → PeerID → Option Error

/-- Constant `replicationFactor` of standard.go. -/
def replicationFactor : Nat := 2

/-- Method `standard.sendMessage`, for the `i`-th call: the first error of `Connect`,
`NewStream` and `WriteMsg`, or nil. -/
def sendMessage (h : HostCalls) (i : Nat) (remote : PeerID) : Option Error :=
  match h.Connect i remote with
  | some err => some err
  | none =>
    match h.NewStream i remote with
    | some err => some err
    | none => h.WriteMsg i remote

/-- The loop of `SendMessage` over the remotes still to try; `i` counts the `sendMessage`
calls made, `err` and `numSuccesses` are the variables of the method, `contacted` the
remotes for which `sendMessage` was called, in order. The result is the returned error and
the remotes contacted. -/
def sendLoop (h : HostCalls) (m : Message) :
    List PeerID → Nat → Option Error → Nat → List PeerID → Option Error × List PeerID
  | [], _, err, _, contacted => (err, contacted)
  | remote :: rest, i, _, numSuccesses, contacted =>
    match sendMessage h i remote with
    | some err => sendLoop h m rest (i + 1) (some err) numSuccesses (contacted ++ [remote])
    | none =>
      if (m.MsgType = .ADD_PROVIDER ∨ m.MsgType = .PUT_VALUE) ∧
          numSuccesses + 1 < replicationFactor then
        sendLoop h m rest (i + 1) none (numSuccesses + 1) (contacted ++ [remote])
      else (none, contacted ++ [remote])

/-- Method `standard.SendMessage`: the returned error and the remotes contacted, in order.
`sortedByKey` is the function of that name, which orders the remotes with
`kbucket.SortClosestPeers`. -/
def SendMessage (sortedByKey : List PeerID → Bytes → List PeerID) (h : HostCalls)
    (px : standard) (m : Message) : Option Error × List PeerID :=
  sendLoop h m (sortedByKey px.remoteIDs m.Key) 0 none 0 []

/-- A host with which every call succeeds. -/
def okHost : HostCalls where
  Connect := fun _ _ => none
  NewStream := fun _ _ => none
  WriteMsg := fun _ _ => none

/-- A host with which only the calls for the remote `[2]` succeed. -/
def secondOnlyHost : HostCalls where
  Connect := fun _ remote => if remote = [2] then none else some "dial failed"
  NewStream := fun _ _ => none
  WriteMsg := fun _ _ => none

/-- A stand-in for `sortedByKey` in the examples: the remotes in the order given. -/
def keepOrder (peers : List PeerID) (_skey : Bytes) : List PeerID := peers

theorem sendLoop_first_success (h : HostCalls) (m : Message)
    (hty : m.MsgType ≠ .ADD_PROVIDER ∧ m.MsgType ≠ .PUT_VALUE) (r : PeerID)
    (post : List PeerID) (pre : List PeerID) :
    ∀ (i : Nat) (err : Option Error) (n : Nat) (contacted : List PeerID),
      (∀ j r', pre[j]? = some r' → sendMessage h (i + j) r' ≠ none) →
      sendMessage h (i + pre.length) r = none →
      sendLoop h m (pre ++ r :: post) i err n contacted = (none, contacted ++ pre ++ [r]) := by
  induction pre with
  | nil =>
    intro i err n contacted _ hr
    have hr' : sendMessage h i r = none := by simpa using hr
    simp [sendLoop, hr', hty.1, hty.2]
  | cons a pre ih =>
    intro i err n contacted hfail hr
    have ha : sendMessage h i a ≠ none := by
      have := hfail 0 a (by simp)
      simpa using this
    cases hs : sendMessage h i a with
    | none => exact absurd hs ha
    | some e =>
      have hstep : sendLoop h m ((a :: pre) ++ r :: post) i err n contacted =
          sendLoop h m (pre ++ r :: post) (i + 1) (some e) n (contacted ++ [a]) := by
        simp [sendLoop, hs]
      rw [hstep, ih (i + 1) (some e) n (contacted ++ [a])]
      · simp
      · intro j r' hj
        have := hfail (j + 1) r' (by simpa using hj)
        rw [show i + 1 + j = i + (j + 1) by omega]
        exact this
      · rw [show i + 1 + pre.length = i + (a :: pre).length by simp; omega]
        exact hr

/-- For every message whose type is neither `ADD_PROVIDER` nor `PUT_VALUE`, `SendMessage`
tries the remotes one at a time, in their sorted order, and after the first remote whose
send succeeds it contacts no further remote and returns nil, as its doc comment says. -/
theorem sendMessage_stops_at_first_success
    (sortedByKey : List PeerID → Bytes → List PeerID) (h : HostCalls) (px : standard)
    (m : Message) (pre : List PeerID) (r : PeerID) (post : List PeerID)
    (hty : m.MsgType ≠ .ADD_PROVIDER ∧ m.MsgType ≠ .PUT_VALUE)
    (hsorted : sortedByKey px.remoteIDs m.Key = pre ++ r :: post)
    (hfail : ∀ j r', pre[j]? = some r' → sendMessage h j r' ≠ none)
    (hok : sendMessage h pre.length r = none) :
    SendMessage sortedByKey h px m = (none, pre ++ [r]) := by
  unfold SendMessage
  rw [hsorted, sendLoop_first_success h m hty r post pre 0 none 0 []]
  · simp
  · intro j r' hj
    rw [Nat.zero_add]
    exact hfail j r' hj
  · rw [Nat.zero_add]
    exact hok

theorem sendMessage_stops_at_first_success_witness :
    SendMessage keepOrder secondOnlyHost ⟨[[1], [2], [3]]⟩ ⟨.GET_VALUE, [7]⟩
      = (none, [[1]] ++ [[2]]) :=
  sendMessage_stops_at_first_success keepOrder secondOnlyHost ⟨[[1], [2], [3]]⟩
    ⟨.GET_VALUE, [7]⟩ [[1]] [2] [[3]] (by decide) rfl
    (by
      intro j r' hj
      cases j with
      | zero =>
        have : r' = [1] := by simpa using hj.symm
        rw [this]
        decide
      | succ j => simp at hj)
    (by decide)

/-- C19 at an `ADD_PROVIDER` (or `PUT_VALUE`) message and two remotes whose sends both
succeed: `SendMessage` contacts the second remote after the send to the first succeeded,
where its doc comment says that it stops after the first successful response; for a
`GET_VALUE` message it does stop there. -/
theorem sendMessage_add_provider_contacts_second :
    sendMessage okHost 0 [1] = none ∧
      SendMessage keepOrder okHost ⟨[[1], [2]]⟩ ⟨.ADD_PROVIDER, [7]⟩ = (none, [[1], [2]]) ∧
      SendMessage keepOrder okHost ⟨[[1], [2]]⟩ ⟨.PUT_VALUE, [7]⟩ = (none, [[1], [2]]) ∧
      SendMessage keepOrder okHost ⟨[[1], [2]]⟩ ⟨.GET_VALUE, [7]⟩ = (none, [[1]]) := by
  decide

/-! ## bootstrap.go: bootstrapAdd -/

/-- Struct `config.Config` as far as `bootstrapAdd` touches it. -/
structure Config where
  Bootstrap : List String
  deriving DecidableEq, Repr

/-- The loop "add new peers" of `bootstrapAdd` over the peers still to visit, with the
current `cfg.Bootstrap`, `addedList` and `addedMap`; `str` is the method `String` of
`config.BootstrapPeer`. -/
def bootstrapAddNew {π : Type} (str : π → String) :
    List π → List String → List π → GoMap String Unit →
      List String × List π × GoMap String Unit
  | [], bootstrap, addedList, addedMap => (bootstrap, addedList, addedMap)
  | peer :: rest, bootstrap, addedList, addedMap =>
    match addedMap.get? (str peer) with
    | some _ => bootstrapAddNew str rest bootstrap addedList addedMap
    | none =>
      bootstrapAddNew str rest (bootstrap ++ [str peer]) (addedList ++ [peer])
        (addedMap.set (str peer) ())

/-- The loop "add back original peers" of `bootstrapAdd` over the strings of `bpeers` still
to visit, with the current `cfg.Bootstrap` and `addedMap`. -/
def bootstrapAddBack :
    List String → List String → GoMap String Unit → List String × GoMap String Unit
  | [], bootstrap, addedMap => (bootstrap, addedMap)
  | s :: rest, bootstrap, addedMap =>
    match addedMap.get? s with
    | some _ => bootstrapAddBack rest bootstrap addedMap
    | none => bootstrapAddBack rest (bootstrap ++ [s]) (addedMap.set s ())

/-- Function `bootstrapAdd` of bootstrap.go: the config afterwards and the pair
`(added, err)`. `SetConfig` is the answer of `r.SetConfig(cfg)`. -/
def bootstrapAdd {π : Type} (str : π → String) (SetConfig : Config → Option Error)
    (cfg : Config) (peers : List π) : Config × Option (List π) × Option Error :=
  let bpeers := cfg.Bootstrap
  let r1 := bootstrapAddNew str peers [] [] GoMap.empty
  let r2 := bootstrapAddBack bpeers r1.1 r1.2.2
  let cfg' : Config := { cfg with Bootstrap := r2.1 }
  match SetConfig cfg' with
  | some err => (cfg', none, some err)
  | none => (cfg', some r1.2.1, none)

/-- C20 at a peer that the bootstrap list already holds: `bootstrapAdd` leaves the list as
it was and still returns the peer as added; a new peer given twice is returned once. -/
theorem bootstrapAdd_returns_present_peer :
    bootstrapAdd (fun s : String => s) (fun _ => none) ⟨["peerA"]⟩ ["peerA"]
        = (⟨["peerA"]⟩, some ["peerA"], none) ∧
      bootstrapAdd (fun s : String => s) (fun _ => none) ⟨["peerA"]⟩ ["peerB", "peerB"]
        = (⟨["peerB", "peerA"]⟩, some ["peerB"], none) := by
  decide

/-! ## path.go: ParsePath -/

/-- Variable `ErrBadPath` of path.go. -/
def ErrBadPath : Error := "invalid ipfs ref path"

/-- Variable `ErrNoComponents` of package path; it is declared in a file that is not part of
the sources, and is an error value other than `ErrBadPath`. -/
def ErrNoComponents : Error := "path must contain at least one component"

/-- The loop of `strings.Split(s, "/")` over the characters still to read, `cur` being the
characters of the current part, last first. -/
def splitSlashAux : List Char → List Char → List String
  | [], cur => [String.mk cur.reverse]
  | c :: cs, cur =>
    if c = '/' then String.mk cur.reverse :: splitSlashAux cs []
    else splitSlashAux cs (c :: cur)

/-- Function `strings.Split(s, "/")` of the Go library. -/
def splitSlash (s : String) : List String := splitSlashAux s.data []

/-- What `ParseKeyToPath` uses from other packages, none of them part of the sources:
`b58.Decode`, the error of `mh.Cast`, and `Key.String` (used by `FromKey`). -/
structure KeyCodec where
  Decode : String → Bytes
  Cast : Bytes → Option Error
  KeyString : Key → String

/-- Function `FromKey` of path.go: `Path("/ipfs/" + k.String())`. -/
def FromKey (C : KeyCodec) (k : Key) : String := "/ipfs/" ++ C.KeyString k

/-- Function `ParseKeyToPath` of path.go, returning the pair `(path, err)`. -/
def ParseKeyToPath (C : KeyCodec) (txt : String) : String × Option Error :=
  if txt = "" then ("", some ErrNoComponents)
  else
    let chk := C.Decode txt
    if chk.length = 0 then ("", some "not a key")
    else
      match C.Cast chk with
      | some err => ("", some err)
      | none => (FromKey C chk, none)

/-- The part of `ParsePath` after its first `if` statement. -/
def parsePathRest (C : KeyCodec) (txt : String) (parts : List String) :
    String × Option Error :=
  if parts.headD "" ≠ "" then
    match (ParseKeyToPath C (parts.headD "")).2 with
    | some _ => ("", some ErrBadPath)
    | none => ("/ipfs/" ++ txt, none)
  else if parts.length < 3 then ("", some ErrBadPath)
  else if parts.getD 1 "" = "ipfs" then
    match (ParseKeyToPath C (parts.getD 2 "")).2 with
    | some err => ("", some err)
    | none => (txt, none)
  else if parts.getD 1 "" ≠ "ipns" then ("", some ErrBadPath)
  else (txt, none)

/-- Function `ParsePath` of path.go, returning the pair `(path, err)`. -/
def ParsePath (C : KeyCodec) (txt : String) : String × Option Error :=
  let parts := splitSlash txt
  if parts.length = 1 then
    match ParseKeyToPath C txt with
    | (kp, none) => (kp, none)
    | (_, some _) => parsePathRest C txt parts
  else parsePathRest C txt parts

/-- A codec that decodes nothing: `b58.Decode` always returns no bytes. -/
def emptyCodec : KeyCodec where
  Decode := fun _ => []
  Cast := fun _ => none
  KeyString := fun _ => ""

/-- C21 at the paths "/ipfs/" and "/ipfs/x": `ParsePath` rejects the first, with any codec,
with the error `ErrNoComponents` of `ParseKeyToPath`, and the second, when "x" decodes to no
bytes, with the error "not a key"; neither error is `ErrBadPath`. Without the "/ipfs/" in
front the same failure of `ParseKeyToPath` is turned into `ErrBadPath`. -/
theorem parsePath_ipfs_returns_key_error (C : KeyCodec) :
    ParsePath C "/ipfs/" = ("", some ErrNoComponents) ∧
      ErrNoComponents ≠ ErrBadPath ∧
      ParsePath emptyCodec "/ipfs/x" = ("", some "not a key") ∧
      ParsePath emptyCodec "x/y" = ("", some ErrBadPath) := by
  refine ⟨?_, by decide, by decide, by decide⟩
  have hparts : splitSlash "/ipfs/" = ["", "ipfs", ""] := by decide
  simp [ParsePath, hparts, parsePathRest, ParseKeyToPath]

/-! ## tryPutBlock: attempts and delays -/

/-- The durations of the `time.Sleep` calls of a trace, in nanoseconds and in order. -/
def sleeps (es : List Event) : List Int :=
  es.filterMap (fun e => match e with
    | Event.sleep ns => some ns
    | _ => none)

/-- The durations of the `time.Sleep` calls that `after` makes beyond its first part
`before`, in order. -/
def sleepsSince (before after : List Event) : List Int :=
  (sleeps after).drop (sleeps before).length

/-- Constant `time.Millisecond` of the Go library, in nanoseconds. -/
def Millisecond : Int := 1000000

/-- The errors that `n` successive calls `Put(blk)` return, the first in blockstore state
`st`: the sequence of `Put` outcomes that `tryPutBlock` draws from. -/
def putOutcomes {σ : Type} (B : Blockstore σ) (blk : Block) : Nat → σ → List (Option Error)
  | 0, _ => []
  | n + 1, st => (B.Put st blk).2 :: putOutcomes B blk n (B.Put st blk).1

/-- The events of successive attempts with the outcomes `rs`, the first being attempt number
`i + 1`: each attempt is a `Put` call, and each failed attempt, numbered `a`, is directly
followed by a sleep of `delay a` nanoseconds. -/
def attemptEvents (blk : Block) (delay : Int → Int) : Int → List (Option Error) → List Event
  | _, [] => []
  | i, none :: rs => Event.put blk none :: attemptEvents blk delay (i + 1) rs
  | i, some e :: rs =>
    Event.put blk (some e) :: Event.sleep (delay (i + 1)) :: attemptEvents blk delay (i + 1) rs

/-- A blockstore whose `k`-th `Put` (counting from 0) returns `f k`; its state counts the
calls. -/
def scriptedStore (f : Nat → Option Error) : Blockstore Nat where
  Put := fun k _ => (k + 1, f k)
  Has := fun k _ => (k, false, none)

theorem sleeps_append (a b : List Event) : sleeps (a ++ b) = sleeps a ++ sleeps b := by
  simp [sleeps, List.filterMap_append]

theorem sleepsSince_append (a b : List Event) : sleepsSince a (a ++ b) = sleeps b := by
  simp [sleepsSince, sleeps_append]

theorem putOutcomes_length {σ : Type} (B : Blockstore σ) (blk : Block) :
    ∀ (n : Nat) (st : σ), (putOutcomes B blk n st).length = n := by
  intro n
  induction n with
  | zero => intro st; rfl
  | succ n ih => intro st; simp [putOutcomes, ih]

/-- Every sequence of outcomes is the sequence of some blockstore. -/
theorem putOutcomes_scripted (f : Nat → Option Error) (blk : Block) :
    ∀ (n k : Nat), putOutcomes (scriptedStore f) blk n k = (List.range n).map (fun j => f (k + j)) := by
  intro n
  induction n with
  | zero => intro k; rfl
  | succ n ih =>
    intro k
    have hstep : putOutcomes (scriptedStore f) blk (n + 1) k =
        f k :: putOutcomes (scriptedStore f) blk n (k + 1) := rfl
    rw [hstep, ih (k + 1), List.range_succ_eq_map]
    simp [Function.comp_def, Nat.add_assoc, Nat.add_comm 1]

theorem wrapInt64_of_bounds (x : Int) (h0 : -2 ^ 63 ≤ x) (h1 : x < 2 ^ 63) : wrapInt64 x = x := by
  unfold wrapInt64
  rw [Int.emod_eq_of_lt (by omega) (by omega)]
  omega

namespace Bitswap

variable {σ : Type}

/-- The loop of `tryPutBlock` calls `Put` up to and including the first success among the
outcomes of the iterations left, and returns nil when there is one, else the last error. -/
theorem tryPutLoop_attempts (B : Blockstore σ) (blk : Block) :
    ∀ (n : Nat) (i : Int) (bs : Bitswap σ) (err : Option Error),
      ∃ added : List Event,
        (tryPutLoop B blk n i bs err).1.trace = bs.trace ++ added ∧
        putResults added = (putOutcomes B blk n bs.blockstore).take
          ((putOutcomes B blk n bs.blockstore).findIdx Option.isNone + 1) ∧
        (tryPutLoop B blk n i bs err).2 =
          (if none ∈ putOutcomes B blk n bs.blockstore then none
            else (putOutcomes B blk n bs.blockstore).getLast?.getD err) ∧
        sleeps added = (List.range ((putResults added).filter Option.isSome).length).map
          (fun k : Nat => wrapInt64 (1000000 * wrapInt64 (400 * (i + k + 1)))) ∧
        added = attemptEvents blk (fun a => wrapInt64 (1000000 * wrapInt64 (400 * a))) i
          (putResults added) := by
  intro n
  induction n with
  | zero =>
    intro i bs err
    exact ⟨[], by simp [tryPutLoop], by simp [putOutcomes, putResults],
      by simp [tryPutLoop, putOutcomes], by simp [putResults, sleeps],
      by simp [putResults, attemptEvents]⟩
  | succ n ih =>
    intro i bs err
    unfold tryPutLoop
    cases h : (B.Put bs.blockstore blk).2 with
    | none =>
      refine ⟨[Event.put blk none], by simp [h], ?_, ?_, ?_, ?_⟩
      · simp [putOutcomes, h, putResults, List.findIdx_cons]
      · simp [putOutcomes, h]
      · simp [putResults, sleeps]
      · simp [putResults, attemptEvents]
    | some e =>
      simp only [h]
      obtain ⟨added, htr, hput, hres, hsl, hev⟩ := ih (i + 1)
        ((({ bs with blockstore := (B.Put bs.blockstore blk).1 } : Bitswap σ).emit
          (Event.put blk (some e))).emit
          (Event.sleep (wrapInt64 (1000000 * wrapInt64 (400 * (i + 1)))))) (some e)
      simp only [emit_blockstore] at hput hres
      have hcons : putResults (Event.put blk (some e) ::
          Event.sleep (wrapInt64 (1000000 * wrapInt64 (400 * (i + 1)))) :: added) =
          some e :: putResults added := by
        simp [putResults]
      have hscons : sleeps (Event.put blk (some e) ::
          Event.sleep (wrapInt64 (1000000 * wrapInt64 (400 * (i + 1)))) :: added) =
          wrapInt64 (1000000 * wrapInt64 (400 * (i + 1))) :: sleeps added := by
        simp [sleeps]
      refine ⟨Event.put blk (some e) ::
        Event.sleep (wrapInt64 (1000000 * wrapInt64 (400 * (i + 1)))) :: added, ?_, ?_, ?_, ?_,
        ?_⟩
      · rw [htr]
        simp
      · rw [hcons, hput]
        simp [putOutcomes, h, List.findIdx_cons]
      · rw [hres]
        simp only [putOutcomes, h]
        by_cases hm : none ∈ putOutcomes B blk n (B.Put bs.blockstore blk).1
        · simp [hm]
        · simp only [hm, if_false, List.mem_cons, false_or]
          cases hl : putOutcomes B blk n (B.Put bs.blockstore blk).1 with
          | nil => simp
          | cons a l => simp [List.getLast?_cons]
      · rw [hscons, hcons, hsl]
        simp only [List.filter_cons, Option.isSome_some, if_true, List.length_cons,
          List.range_succ_eq_map, List.map_cons, List.map_map]
        congr 1
        · simp
        · apply List.map_congr_left
          intro k _
          simp only [Function.comp_apply, Nat.cast_succ]
          congr 3
          ring
      · rw [hcons]
        simp only [attemptEvents]
        rw [← hev]

theorem take_min_length {α : Type} (l : List α) (n m : Nat) (h : l.length = n) :
    l.take (min n m) = l.take m := by
  rw [← h, Nat.min_comm, ← List.take_take, List.take_length]

theorem getLast_of_all_some (l : List (Option Error)) (hne : l ≠ [])
    (hall : none ∉ l) : ∃ e : Error, l.getLast? = some (some e) := by
  have hmem := List.getLast_mem hne
  cases hx : l.getLast hne with
  | none => rw [hx] at hmem; exact absurd hmem hall
  | some e => exact ⟨e, by rw [List.getLast?_eq_getLast l hne, hx]⟩

/-- C22. For every attempts count `n ≥ 1`, every blockstore and every state of it (so every
sequence of `Put` outcomes), `tryPutBlock(blk, n)` calls `Put` exactly `min(n, j)` times,
`j` being the 1-based index of the first success among the outcomes of `n` successive `Put`
calls (`n + 1` when none succeeds): the calls made are the first `min(n, j)` of these. It
returns nil exactly when one of the `n` outcomes is a success, and otherwise the error of
the `n`-th attempt. -/
theorem tryPutBlock_attempts (B : Blockstore σ) (bs : Bitswap σ) (blk : Block) (n : Nat)
    (hn : 1 ≤ n) :
    putsSince bs.trace (tryPutBlock B bs blk n).1.trace =
        (putOutcomes B blk n bs.blockstore).take
          (min n ((putOutcomes B blk n bs.blockstore).findIdx Option.isNone + 1)) ∧
      (putsSince bs.trace (tryPutBlock B bs blk n).1.trace).length =
        min n ((putOutcomes B blk n bs.blockstore).findIdx Option.isNone + 1) ∧
      ((tryPutBlock B bs blk n).2 = none ↔ none ∈ putOutcomes B blk n bs.blockstore) ∧
      (none ∉ putOutcomes B blk n bs.blockstore →
        (putOutcomes B blk n bs.blockstore)[n - 1]? = some (tryPutBlock B bs blk n).2) := by
  obtain ⟨added, htr, hput, hres, -, -⟩ := tryPutLoop_attempts B blk n 0 bs none
  have hlen := putOutcomes_length B blk n bs.blockstore
  have htp : tryPutBlock B bs blk n = tryPutLoop B blk n 0 bs none := by
    simp [tryPutBlock]
  have hne : putOutcomes B blk n bs.blockstore ≠ [] := by
    intro h0
    rw [h0] at hlen
    simp at hlen
    omega
  rw [htp, htr, putsSince_append, hput, take_min_length _ _ _ hlen]
  refine ⟨rfl, ?_, ?_, ?_⟩
  · rw [List.length_take, hlen, Nat.min_comm]
  · rw [hres]
    by_cases hm : none ∈ putOutcomes B blk n bs.blockstore
    · simp [hm]
    · obtain ⟨e, he⟩ := getLast_of_all_some _ hne hm
      simp [hm, he]
  · intro hm
    obtain ⟨e, he⟩ := getLast_of_all_some _ hne hm
    have hget : (putOutcomes B blk n bs.blockstore)[n - 1]? = some (some e) := by
      rw [← he, List.getLast?_eq_getElem?, hlen]
    rw [hres, if_neg hm, he, hget]
    rfl

end Bitswap

/-- Outcomes of a blockstore whose first two `Put` calls fail and whose later ones succeed. -/
def twoFailures (k : Nat) : Option Error := if k < 2 then some "put failed" else none

theorem Bitswap.tryPutBlock_attempts_witness :
    1 ≤ 4 ∧
      putsSince (Bitswap.init 0).trace
          (Bitswap.tryPutBlock (scriptedStore twoFailures) (Bitswap.init 0) sampleBlock
            (4 : Nat)).1.trace =
        (putOutcomes (scriptedStore twoFailures) sampleBlock 4 (Bitswap.init 0).blockstore).take
          (min 4 ((putOutcomes (scriptedStore twoFailures) sampleBlock 4
            (Bitswap.init 0).blockstore).findIdx Option.isNone + 1)) ∧
      (putsSince (Bitswap.init 0).trace
          (Bitswap.tryPutBlock (scriptedStore twoFailures) (Bitswap.init 0) sampleBlock
            (4 : Nat)).1.trace).length =
        min 4 ((putOutcomes (scriptedStore twoFailures) sampleBlock 4
          (Bitswap.init 0).blockstore).findIdx Option.isNone + 1) ∧
      ((Bitswap.tryPutBlock (scriptedStore twoFailures) (Bitswap.init 0) sampleBlock
          (4 : Nat)).2 = none ↔
        none ∈ putOutcomes (scriptedStore twoFailures) sampleBlock 4
          (Bitswap.init 0).blockstore) ∧
      (none ∉ putOutcomes (scriptedStore twoFailures) sampleBlock 4
          (Bitswap.init 0).blockstore →
        (putOutcomes (scriptedStore twoFailures) sampleBlock 4
          (Bitswap.init 0).blockstore)[4 - 1]? =
          some (Bitswap.tryPutBlock (scriptedStore twoFailures) (Bitswap.init 0) sampleBlock
            (4 : Nat)).2) :=
  ⟨by decide,
    Bitswap.tryPutBlock_attempts (scriptedStore twoFailures) (Bitswap.init 0) sampleBlock 4
      (by decide)⟩

/-- Over a blockstore whose `Put` fails twice and succeeds the third time, `tryPutBlock` with
4 attempts makes 3 calls and returns nil; with 2 attempts both calls fail and it returns
the second error. -/
theorem tryPutBlock_scripted_eval :
    putsSince [] (Bitswap.tryPutBlock (scriptedStore twoFailures) (Bitswap.init 0)
        sampleBlock 4).1.trace = [some "put failed", some "put failed", none] ∧
      (Bitswap.tryPutBlock (scriptedStore twoFailures) (Bitswap.init 0) sampleBlock 4).2
        = none ∧
      putsSince [] (Bitswap.tryPutBlock (scriptedStore twoFailures) (Bitswap.init 0)
        sampleBlock 2).1.trace = [some "put failed", some "put failed"] ∧
      (Bitswap.tryPutBlock (scriptedStore twoFailures) (Bitswap.init 0) sampleBlock 2).2
        = some "put failed" := by
  decide

/-! ### Delays -/

theorem delay_exact (a : Int) (h0 : 0 ≤ a) (h1 : a ≤ 23058430092) :
    wrapInt64 (1000000 * wrapInt64 (400 * a)) = 400 * a * Millisecond := by
  have hin : wrapInt64 (400 * a) = 400 * a :=
    wrapInt64_of_bounds _ (by norm_num; omega) (by norm_num; omega)
  rw [hin, wrapInt64_of_bounds _ (by norm_num; omega) (by norm_num; omega)]
  unfold Millisecond
  ring

theorem attemptEvents_congr (blk : Block) (d1 d2 : Int → Int) :
    ∀ (rs : List (Option Error)) (i : Int),
      (∀ k : Nat, k < rs.length → d1 (i + k + 1) = d2 (i + k + 1)) →
      attemptEvents blk d1 i rs = attemptEvents blk d2 i rs := by
  intro rs
  induction rs with
  | nil => intro i _; rfl
  | cons r rs ih =>
    intro i h
    have htail : attemptEvents blk d1 (i + 1) rs = attemptEvents blk d2 (i + 1) rs := by
      apply ih
      intro k hk
      have := h (k + 1) (by simp; omega)
      have he : i + ((k + 1 : Nat) : Int) + 1 = i + 1 + (k : Int) + 1 := by push_cast; ring
      rw [he] at this
      exact this
    have hhead : d1 (i + 1) = d2 (i + 1) := by
      have := h 0 (by simp)
      simpa using this
    cases r with
    | none => simp [attemptEvents, htail]
    | some e => simp [attemptEvents, htail, hhead]

/-- The durations of the sleeps of `tryPutBlock` over the blockstore that always fails. -/
theorem failingStore_sleeps (bs : Bitswap Unit) (blk : Block) (n : Nat) :
    sleepsSince bs.trace (Bitswap.tryPutLoop failingStore blk n 0 bs none).1.trace =
      (List.range n).map (fun k : Nat => wrapInt64 (1000000 * wrapInt64 (400 * ((k : Int) + 1)))) := by
  obtain ⟨added, htr, hput, -, hsl, -⟩ := Bitswap.tryPutLoop_attempts failingStore blk n 0 bs none
  have hout : ∀ (m : Nat) (st : Unit),
      putOutcomes failingStore blk m st = List.replicate m (some "put failed") := by
    intro m
    induction m with
    | zero => intro st; rfl
    | succ m ih =>
      intro st
      have hstep : putOutcomes failingStore blk (m + 1) st =
          some "put failed" :: putOutcomes failingStore blk m () := rfl
      rw [hstep, ih, List.replicate_succ]
  have hidx : ∀ m : Nat,
      (List.replicate m (some "put failed" : Option Error)).findIdx Option.isNone = m := by
    intro m
    induction m with
    | zero => rfl
    | succ m ih => simp [List.replicate_succ, List.findIdx_cons, ih]
  rw [hout, hidx] at hput
  have hall : putResults added = List.replicate n (some "put failed") := by
    rw [hput, List.take_of_length_le (by simp)]
  have hcount : ((putResults added).filter Option.isSome).length = n := by
    rw [hall, List.filter_eq_self.2 (by intro a ha; rw [List.eq_of_mem_replicate ha]; rfl)]
    simp
  rw [htr, sleepsSince_append, hsl, hcount]
  simp

namespace Bitswap

variable {σ : Type}

/-- C23, as amended. For an attempts count of at most 23058430092 (the largest `i` for which
`400*i` ms, in nanoseconds, fits the int64 of `time.Duration`), `tryPutBlock` follows each
failed `Put` attempt, the `i`-th, directly by a sleep of exactly `400*i` ms, the final
failed attempt included, and does nothing else: the delays are `400, 800, ...` ms, as many
as failed attempts, and strictly increasing; with 4 attempts that all fail they are 400,
800, 1200 and 1600 ms, 4000 ms in total. -/
theorem tryPutBlock_delays (B : Blockstore σ) (bs : Bitswap σ) (blk : Block) (n : Nat)
    (hn : n ≤ 23058430092) :
    (tryPutBlock B bs blk n).1.trace =
        bs.trace ++ attemptEvents blk (fun a => 400 * a * Millisecond) 0
          (putsSince bs.trace (tryPutBlock B bs blk n).1.trace) ∧
      sleepsSince bs.trace (tryPutBlock B bs blk n).1.trace =
        (List.range ((putsSince bs.trace
          (tryPutBlock B bs blk n).1.trace).filter Option.isSome).length).map
          (fun k : Nat => 400 * ((k : Int) + 1) * Millisecond) ∧
      (sleepsSince bs.trace (tryPutBlock B bs blk n).1.trace).Pairwise (fun a b => a < b) ∧
      (n = 4 → none ∉ putOutcomes B blk 4 bs.blockstore →
        sleepsSince bs.trace (tryPutBlock B bs blk n).1.trace =
            [400 * Millisecond, 800 * Millisecond, 1200 * Millisecond, 1600 * Millisecond] ∧
          (sleepsSince bs.trace (tryPutBlock B bs blk n).1.trace).sum = 4000 * Millisecond) := by
  obtain ⟨added, htr, hput, -, hsl, hev⟩ := tryPutLoop_attempts B blk n 0 bs none
  have hlen := putOutcomes_length B blk n bs.blockstore
  have htp : tryPutBlock B bs blk n = tryPutLoop B blk n 0 bs none := by
    simp [tryPutBlock]
  have hmade : (putResults added).length ≤ n := by
    rw [hput, List.length_take, hlen]
    exact Nat.min_le_right _ _
  have hfail : ((putResults added).filter Option.isSome).length ≤ n :=
    Nat.le_trans (List.length_filter_le _ _) hmade
  have hsl2 : sleeps added =
      (List.range ((putResults added).filter Option.isSome).length).map
        (fun k : Nat => 400 * ((k : Int) + 1) * Millisecond) := by
    rw [hsl]
    apply List.map_congr_left
    intro k hk
    have hk2 := List.mem_range.1 hk
    have he : (0 : Int) + (k : Int) + 1 = (k : Int) + 1 := by ring
    rw [he]
    exact delay_exact _ (by omega) (by omega)
  rw [htp, htr, putsSince_append, sleepsSince_append]
  refine ⟨?_, hsl2, ?_, ?_⟩
  · congr 1
    rw [← attemptEvents_congr blk (fun a => wrapInt64 (1000000 * wrapInt64 (400 * a)))]
    · exact hev
    · intro k hk
      have he : (0 : Int) + (k : Int) + 1 = (k : Int) + 1 := by ring
      rw [he]
      exact delay_exact _ (by omega) (by omega)
  · rw [hsl2]
    refine (List.pairwise_lt_range _).map _ ?_
    intro a b hab
    have : (a : Int) < (b : Int) := by exact_mod_cast hab
    unfold Millisecond
    omega
  · intro h4 hnone
    subst h4
    have hidx : (putOutcomes B blk 4 bs.blockstore).findIdx Option.isNone = 4 := by
      rw [← hlen]
      apply List.findIdx_eq_length.2
      intro x hx
      cases x with
      | none => exact absurd hx hnone
      | some e => rfl
    have hall : putResults added = putOutcomes B blk 4 bs.blockstore := by
      rw [hput, hidx, List.take_of_length_le (by omega)]
    have hcount : ((putResults added).filter Option.isSome).length = 4 := by
      rw [hall, List.filter_eq_self.2, hlen]
      intro x hx
      cases x with
      | none => exact absurd hx hnone
      | some e => rfl
    rw [hsl2, hcount]
    simp [List.range_succ, Millisecond]

end Bitswap

theorem Bitswap.tryPutBlock_delays_witness :
    4 ≤ 23058430092 ∧
      sleepsSince openFailing.trace
          (Bitswap.tryPutBlock failingStore openFailing sampleBlock (4 : Nat)).1.trace =
        [400 * Millisecond, 800 * Millisecond, 1200 * Millisecond, 1600 * Millisecond] ∧
      (sleepsSince openFailing.trace
          (Bitswap.tryPutBlock failingStore openFailing sampleBlock (4 : Nat)).1.trace).sum
        = 4000 * Millisecond :=
  ⟨by decide,
    (Bitswap.tryPutBlock_delays failingStore openFailing sampleBlock 4 (by decide)).2.2.2 rfl
      (by decide)⟩

/-- C23, as stated, fails at the attempts count 23058430093 over a blockstore whose every
`Put` fails: the delay after the 23058430092-nd failed attempt is 9223372036800000000 ns,
but `400*23058430093` ms is more nanoseconds than an int64 holds, and the duration passed
to `time.Sleep` after the 23058430093-rd failed attempt is the negative number
-9223372036509551616: not `400*i` ms, and smaller than the delay before it. -/
theorem tryPutBlock_delay_wraps :
    (sleepsSince openFailing.trace
        (Bitswap.tryPutBlock failingStore openFailing sampleBlock 23058430093).1.trace)[
          23058430091]? = some (400 * 23058430092 * Millisecond) ∧
      (sleepsSince openFailing.trace
        (Bitswap.tryPutBlock failingStore openFailing sampleBlock 23058430093).1.trace)[
          23058430092]? = some (-9223372036509551616) ∧
      (-9223372036509551616 : Int) ≠ 400 * 23058430093 * Millisecond ∧
      (-9223372036509551616 : Int) < 400 * 23058430092 * Millisecond := by
  have htp : Bitswap.tryPutBlock failingStore openFailing sampleBlock 23058430093 =
      Bitswap.tryPutLoop failingStore sampleBlock 23058430093 0 openFailing none := rfl
  rw [htp, failingStore_sleeps]
  refine ⟨?_, ?_, by norm_num [Millisecond], by norm_num [Millisecond]⟩
  · rw [List.getElem?_map, List.getElem?_range (by norm_num)]
    norm_num [wrapInt64, Millisecond]
  · rw [List.getElem?_map, List.getElem?_range (by norm_num)]
    norm_num [wrapInt64]

/-! ## The scope ends at the final select -/

theorem take_first_success (l : List (Option Error)) (h : none ∈ l) :
    (l.take (l.findIdx Option.isNone + 1)).getLast? = some none ∧
      (l.take (l.findIdx Option.isNone + 1)).filter Option.isNone = [none] := by
  induction l with
  | nil => simp at h
  | cons a l ih =>
    cases a with
    | none => simp [List.findIdx_cons]
    | some e =>
      have hl : none ∈ l := by simpa using h
      obtain ⟨h1, h2⟩ := ih hl
      have hne : l.take (l.findIdx Option.isNone + 1) ≠ [] := by
        intro h0
        rw [h0] at h1
        simp at h1
      constructor
      · simp only [List.findIdx_cons, Option.isNone_some, cond_false, List.take_succ_cons]
        cases ht : l.take (l.findIdx Option.isNone + 1) with
        | nil => exact absurd ht hne
        | cons b t =>
          rw [ht] at h1
          rw [List.getLast?_cons_cons]
          exact h1
      · simp only [List.findIdx_cons, Option.isNone_some, cond_false, List.take_succ_cons]
        simpa using h2

namespace Bitswap

variable {σ : Type}

/-- C25. On an open exchange, when the case `<-ctx.Done()` of the final select of
`GetBlocks` proceeds, `GetBlocks` returns no channel and the scope's error; the calls it
has made are `Subscribe` with the keys and then `WantBlocks` with the keys, and nothing
after them: no `CancelWants`, no send on the provider-discovery queue. The rest of the
state is as before. -/
theorem getBlocks_scope_done (bs : Bitswap σ) (keys : List Key) (e : Error)
    (hopen : bs.process = .running) :
    (GetBlocks bs (.done e) keys).2 = .returned (none, some e) ∧
      (GetBlocks bs (.done e) keys).1 =
        { bs with trace := bs.trace ++ [Event.subscribe keys, Event.wantBlocks keys] } ∧
      cancelCalls (GetBlocks bs (.done e) keys).1.trace = cancelCalls bs.trace := by
  have hcl : bs.process.Closing = false := by rw [hopen]; rfl
  have hout : GetBlocks bs (.done e) keys =
      ({ bs with trace := bs.trace ++ [Event.subscribe keys, Event.wantBlocks keys] },
        .returned (none, some e)) := by
    simp [GetBlocks, hcl, emit]
  rw [hout]
  refine ⟨rfl, rfl, ?_⟩
  simp [cancelCalls_append, cancelCalls]

/-- What `HasBlock` does on an open exchange: after a `Put` that succeeded it publishes the
block and goes to the final select; after 4 failed `Put` calls it returns the last error,
whichever case of the select would proceed. -/
theorem hasBlock_open_cases (B : Blockstore σ) (bs : Bitswap σ) (blk : Block)
    (hcl : bs.process.Closing = false) :
    ∃ added : List Event,
      (∀ x ∈ added, x.fromTryPut = true) ∧
      ((putResults added).getLast? = some none ∧
          (putResults added).filter Option.isNone = [none] ∧
          none ∈ putOutcomes B blk 4 bs.blockstore ∧
          (∀ sel : Select, HasBlock B bs sel blk =
            match sel with
            | .send =>
              ({ (tryPutLoop B blk 4 0 bs none).1 with
                  trace := bs.trace ++ added ++ [Event.publish blk, Event.newBlocks blk] },
                .returned none)
            | .done e =>
              ({ (tryPutLoop B blk 4 0 bs none).1 with
                  trace := bs.trace ++ added ++ [Event.publish blk] },
                .returned (some e))
            | .never =>
              ({ (tryPutLoop B blk 4 0 bs none).1 with
                  trace := bs.trace ++ added ++ [Event.publish blk] },
                .blocked)) ∨
        ∃ e2 : Error, (putResults added).getLast? = some (some e2) ∧
          none ∉ putOutcomes B blk 4 bs.blockstore ∧
          ∀ sel : Select, HasBlock B bs sel blk =
            ({ (tryPutLoop B blk 4 0 bs none).1 with trace := bs.trace ++ added },
              .returned (some e2))) := by
  obtain ⟨added, htr, hput, hres, -, -⟩ := tryPutLoop_attempts B blk 4 0 bs none
  have hadded : ∀ x ∈ added, x.fromTryPut = true := by
    intro x hx
    obtain ⟨added2, htr2, hev2, -⟩ := tryPutLoop_trace B blk 4 0 bs none
    have : added2 = added := List.append_cancel_left (htr2.symm.trans htr)
    exact hev2 x (this ▸ hx)
  refine ⟨added, hadded, ?_⟩
  by_cases hm : none ∈ putOutcomes B blk 4 bs.blockstore
  · left
    have hr : (tryPutLoop B blk 4 0 bs none).2 = none := by rw [hres, if_pos hm]
    obtain ⟨h1, h2⟩ := take_first_success _ hm
    refine ⟨by rw [hput]; exact h1, by rw [hput]; exact h2, hm, ?_⟩
    intro sel
    cases sel <;> simp [HasBlock, hcl, tryPutBlock, hr, emit, htr]
  · right
    have hne : putOutcomes B blk 4 bs.blockstore ≠ [] := by
      intro h0
      have := putOutcomes_length B blk 4 bs.blockstore
      rw [h0] at this
      simp at this
    obtain ⟨e2, he2⟩ := getLast_of_all_some _ hne hm
    have hr : (tryPutLoop B blk 4 0 bs none).2 = some e2 := by
      rw [hres, if_neg hm, he2]
      rfl
    have hidx : (putOutcomes B blk 4 bs.blockstore).findIdx Option.isNone =
        (putOutcomes B blk 4 bs.blockstore).length := by
      apply List.findIdx_eq_length.2
      intro x hx
      cases x with
      | none => exact absurd hx hm
      | some e => rfl
    have hall : putResults added = putOutcomes B blk 4 bs.blockstore := by
      rw [hput, hidx, List.take_of_length_le (by omega)]
    refine ⟨e2, by rw [hall]; exact he2, hm, ?_⟩
    intro sel
    have htrace : ({ (tryPutLoop B blk 4 0 bs none).1 with trace := bs.trace ++ added } :
        Bitswap σ) = (tryPutLoop B blk 4 0 bs none).1 := by
      rw [← htr]
    rw [htrace]
    simp [HasBlock, hcl, tryPutBlock, hr]

/-- C26, as amended. Whenever `HasBlock` returns an error `e` that is not the error with
which the last `Put` attempt of the call failed (and, on a closing or closed exchange, not
the error "bitswap is closed"), `e` is the scope's error `ctx.Err()` taken at the final
select, and by then exactly one `Put` call of this `HasBlock` call, the last, has
succeeded, the block has been published exactly once, `Publish` being the last call made,
and nothing has been sent on the reprovide queue. And on an open exchange on which one of
the `Put` attempts succeeds, a `HasBlock` call whose scope ends at the final select does
return the scope's error, with these same facts. -/
theorem hasBlock_scope_error (B : Blockstore σ) (bs : Bitswap σ) (blk : Block) (e : Error) :
    (∀ sel : Select,
        (HasBlock B bs sel blk).2 = .returned (some e) →
        (putsSince bs.trace (HasBlock B bs sel blk).1.trace).getLast? ≠ some (some e) →
        (bs.process.Closing = true → e ≠ "bitswap is closed") →
        sel = .done e ∧
          (putsSince bs.trace (HasBlock B bs sel blk).1.trace).getLast? = some none ∧
          (putsSince bs.trace (HasBlock B bs sel blk).1.trace).filter Option.isNone
            = [none] ∧
          published (HasBlock B bs sel blk).1.trace = published bs.trace ++ [blk] ∧
          reprovided (HasBlock B bs sel blk).1.trace = reprovided bs.trace ∧
          (HasBlock B bs sel blk).1.trace.getLast? = some (Event.publish blk)) ∧
      (bs.process.Closing = false → none ∈ putOutcomes B blk 4 bs.blockstore →
        (HasBlock B bs (.done e) blk).2 = .returned (some e) ∧
          (putsSince bs.trace (HasBlock B bs (.done e) blk).1.trace).getLast? = some none ∧
          (putsSince bs.trace (HasBlock B bs (.done e) blk).1.trace).filter Option.isNone
            = [none] ∧
          published (HasBlock B bs (.done e) blk).1.trace = published bs.trace ++ [blk] ∧
          reprovided (HasBlock B bs (.done e) blk).1.trace = reprovided bs.trace ∧
          (HasBlock B bs (.done e) blk).1.trace.getLast? = some (Event.publish blk)) := by
  have hdone : ∀ added : List Event, (∀ x ∈ added, x.fromTryPut = true) →
      (putResults added).getLast? = some none →
      (putResults added).filter Option.isNone = [none] →
      (putsSince bs.trace (bs.trace ++ added ++ [Event.publish blk])).getLast? = some none ∧
        (putsSince bs.trace (bs.trace ++ added ++ [Event.publish blk])).filter Option.isNone
          = [none] ∧
        published (bs.trace ++ added ++ [Event.publish blk]) = published bs.trace ++ [blk] ∧
        reprovided (bs.trace ++ added ++ [Event.publish blk]) = reprovided bs.trace ∧
        (bs.trace ++ added ++ [Event.publish blk]).getLast? = some (Event.publish blk) := by
    intro added hadded h1 h2
    have hp : putsSince bs.trace (bs.trace ++ added ++ [Event.publish blk]) =
        putResults added := by
      rw [List.append_assoc, putsSince_append, putResults_append]
      simp [putResults]
    rw [hp]
    refine ⟨h1, h2, ?_, ?_, by simp⟩
    · rw [published_append, published_append, published_fromTryPut added hadded]
      simp [published]
    · rw [reprovided_append, reprovided_append, reprovided_fromTryPut added hadded]
      simp [reprovided]
  constructor
  · intro sel hret hlast hclosed
    cases hcl : bs.process.Closing with
    | true =>
      exfalso
      have hout : HasBlock B bs sel blk = (bs, .returned (some "bitswap is closed")) := by
        simp [HasBlock, hcl]
      rw [hout] at hret
      have he : e = "bitswap is closed" := by
        have := Outcome.returned.inj hret
        exact (Option.some.inj this).symm
      exact hclosed hcl he
    | false =>
      obtain ⟨added, hadded, hcase⟩ := hasBlock_open_cases B bs blk hcl
      rcases hcase with ⟨h1, h2, -, hall⟩ | ⟨e2, hl2, -, hall⟩
      · have hsel := hall sel
        cases sel with
        | send =>
          rw [hsel] at hret
          simp at hret
        | never =>
          rw [hsel] at hret
          simp at hret
        | done e1 =>
          rw [hsel] at hret ⊢
          have he : e1 = e := by
            have := Outcome.returned.inj hret
            exact Option.some.inj this
          subst he
          exact ⟨rfl, hdone added hadded h1 h2⟩
      · exfalso
        rw [hall sel] at hret hlast
        have he : e2 = e := by
          have := Outcome.returned.inj hret
          exact Option.some.inj this
        apply hlast
        simp only [putsSince_append]
        rw [hl2, he]
  · intro hcl hm
    obtain ⟨added, hadded, hcase⟩ := hasBlock_open_cases B bs blk hcl
    rcases hcase with ⟨h1, h2, -, hall⟩ | ⟨e2, -, hnone, -⟩
    · rw [hall (.done e)]
      exact ⟨rfl, hdone added hadded h1 h2⟩
    · exact absurd hm hnone

end Bitswap

theorem Bitswap.getBlocks_scope_done_witness :
    openMem.process = .running ∧
      (Bitswap.GetBlocks openMem (.done "context canceled") [[1]]).2
        = .returned (none, some "context canceled") ∧
      (Bitswap.GetBlocks openMem (.done "context canceled") [[1]]).1 =
        { openMem with
          trace := openMem.trace ++ [Event.subscribe [[1]], Event.wantBlocks [[1]]] } ∧
      cancelCalls (Bitswap.GetBlocks openMem (.done "context canceled") [[1]]).1.trace
        = cancelCalls openMem.trace :=
  ⟨rfl, Bitswap.getBlocks_scope_done openMem [[1]] "context canceled" rfl⟩

/-- A blockstore whose `Put` always fails with the error of a cancelled scope. -/
def cancelledStore : Blockstore Unit where
  Put := fun _ _ => ((), some "context canceled")
  Has := fun _ _ => ((), false, none)

theorem Bitswap.hasBlock_scope_error_witness :
    (Bitswap.HasBlock memStore openMem (.done "context canceled") sampleBlock).2
        = .returned (some "context canceled") ∧
      (putsSince openMem.trace (Bitswap.HasBlock memStore openMem (.done "context canceled")
        sampleBlock).1.trace).getLast? ≠ some (some "context canceled") ∧
      (openMem.process.Closing = true → "context canceled" ≠ "bitswap is closed") ∧
      ((.done "context canceled" : Select) = .done "context canceled" ∧
        (putsSince openMem.trace (Bitswap.HasBlock memStore openMem
          (.done "context canceled") sampleBlock).1.trace).getLast? = some none ∧
        (putsSince openMem.trace (Bitswap.HasBlock memStore openMem
          (.done "context canceled") sampleBlock).1.trace).filter Option.isNone = [none] ∧
        published (Bitswap.HasBlock memStore openMem (.done "context canceled")
          sampleBlock).1.trace = published openMem.trace ++ [sampleBlock] ∧
        reprovided (Bitswap.HasBlock memStore openMem (.done "context canceled")
          sampleBlock).1.trace = reprovided openMem.trace ∧
        (Bitswap.HasBlock memStore openMem (.done "context canceled")
          sampleBlock).1.trace.getLast? = some (Event.publish sampleBlock)) :=
  ⟨by decide, by decide, fun _ => by decide,
    (Bitswap.hasBlock_scope_error memStore openMem sampleBlock "context canceled").1
      (.done "context canceled") (by decide) (by decide) (fun _ => by decide)⟩

/-- C26, as stated, fails over a blockstore whose `Put` fails with the error value of the
scope: on an open exchange whose scope has ended with "context canceled", `HasBlock`
returns that error after 4 failed `Put` calls, with no successful `Put`, nothing published
and the final select never reached (the call returns the same with any select outcome). -/
theorem hasBlock_put_error_is_scope_error :
    (Bitswap.HasBlock cancelledStore (Bitswap.init ()) (.done "context canceled")
        sampleBlock).2 = .returned (some "context canceled") ∧
      putsSince [] (Bitswap.HasBlock cancelledStore (Bitswap.init ())
        (.done "context canceled") sampleBlock).1.trace
        = [some "context canceled", some "context canceled", some "context canceled",
            some "context canceled"] ∧
      published (Bitswap.HasBlock cancelledStore (Bitswap.init ())
        (.done "context canceled") sampleBlock).1.trace = [] ∧
      Bitswap.HasBlock cancelledStore (Bitswap.init ()) .send sampleBlock
        = Bitswap.HasBlock cancelledStore (Bitswap.init ()) (.done "context canceled")
            sampleBlock :=
  ⟨by decide, by decide, by decide, rfl⟩

/-! ## sorting.go: SortClosestPeers -/

/-- What sorting.go uses from the other files of package kbucket, none of them part of the
sources: the type `ID` of keys in the XOR key space, `ConvertPeerID`, `xor` and the method
`ID.less`. -/
structure KeySpace (ID : Type) where
  ConvertPeerID : PeerID → ID
  xor : ID → ID → ID
  less : ID → ID → Bool

/-- Struct `peerDistance` of sorting.go. -/
structure peerDistance (ID : Type) where
  p : PeerID
  distance : ID

/-- Method `peerSorterArr.Less` of sorting.go, on the two elements it compares. -/
def peerSorterArr.Less {ID : Type} (K : KeySpace ID) (a b : peerDistance ID) : Bool :=
  K.less a.distance b.distance

/-- Function `SortClosestPeers` of sorting.go. -/
def SortClosestPeers {ID : Type} (K : KeySpace ID) (peers : List PeerID) (target : ID) :
    List PeerID :=
  let psarr : List (peerDistance ID) :=
    peers.map (fun p => { p := p, distance := K.xor target (K.ConvertPeerID p) })
  (sortSort (peerSorterArr.Less K) psarr).map (fun pd => pd.p)

/-- Inserting into a list ordered by `R` keeps it ordered, when `less x y` entails `R x y`
and its failure entails `R y x`. -/
theorem sortInsert_pairwise {α : Type} (less : α → α → Bool) (R : α → α → Prop)
    (htrans : ∀ x y z, R x y → R y z → R x z)
    (hless : ∀ x y, less x y = true → R x y)
    (hnot : ∀ x y, less x y = false → R y x)
    (a : α) (l : List α) (h : l.Pairwise R) : (sortInsert less a l).Pairwise R := by
  induction l with
  | nil => simp [sortInsert]
  | cons b l ih =>
    rw [List.pairwise_cons] at h
    unfold sortInsert
    cases hb : less b a with
    | true =>
      simp only [if_true, List.pairwise_cons]
      refine ⟨?_, ih h.2⟩
      intro x hx
      have hx2 := (sortInsert_perm less a l).subset hx
      rcases List.mem_cons.1 hx2 with rfl | hx2
      · exact hless _ _ hb
      · exact h.1 x hx2
    | false =>
      simp only [Bool.false_eq_true, if_false, List.pairwise_cons]
      refine ⟨?_, h.1, h.2⟩
      intro x hx
      rcases List.mem_cons.1 hx with rfl | hx
      · exact hnot _ _ hb
      · exact htrans _ _ _ (hnot _ _ hb) (h.1 x hx)

theorem sortSort_pairwise {α : Type} (less : α → α → Bool) (R : α → α → Prop)
    (htrans : ∀ x y z, R x y → R y z → R x z)
    (hless : ∀ x y, less x y = true → R x y)
    (hnot : ∀ x y, less x y = false → R y x)
    (l : List α) : (sortSort less l).Pairwise R := by
  induction l with
  | nil => simp [sortSort]
  | cons a l ih =>
    unfold sortSort
    exact sortInsert_pairwise less R htrans hless hnot a _ ih

/-- C24. Let `le` order the distances so that `less` agrees with it: `d.less(d2)` entails
`le d d2`, its failure entails `le d2 d`, and `le` is transitive (so `less` may be the
strict or the non-strict comparison). Then for every list of peers and every target,
`SortClosestPeers` returns a permutation of the list in which the distances
`xor(target, ConvertPeerID(p))` are non-decreasing from the first peer to the last. -/
theorem sortClosestPeers_perm_sorted {ID : Type} (K : KeySpace ID) (le : ID → ID → Prop)
    (htrans : ∀ x y z, le x y → le y z → le x z)
    (hless : ∀ x y, K.less x y = true → le x y)
    (hnot : ∀ x y, K.less x y = false → le y x)
    (peers : List PeerID) (target : ID) :
    (SortClosestPeers K peers target).Perm peers ∧
      (SortClosestPeers K peers target).Pairwise (fun p q =>
        le (K.xor target (K.ConvertPeerID p)) (K.xor target (K.ConvertPeerID q))) := by
  unfold SortClosestPeers
  constructor
  · have hp := (sortSort_perm (peerSorterArr.Less K)
      (peers.map (fun p => ({ p := p, distance := K.xor target (K.ConvertPeerID p) } :
        peerDistance ID)))).map (fun pd => pd.p)
    refine hp.trans ?_
    rw [List.map_map]
    have : ((fun pd : peerDistance ID => pd.p) ∘ fun p =>
        ({ p := p, distance := K.xor target (K.ConvertPeerID p) } : peerDistance ID)) = id := rfl
    rw [this, List.map_id]
  · rw [List.pairwise_map]
    have hsorted := sortSort_pairwise (peerSorterArr.Less K)
      (fun a b : peerDistance ID => le a.distance b.distance)
      (fun x y z => htrans _ _ _) (fun x y => hless _ _) (fun x y => hnot _ _)
      (peers.map (fun p => ({ p := p, distance := K.xor target (K.ConvertPeerID p) } :
        peerDistance ID)))
    have hdist : ∀ pd ∈ sortSort (peerSorterArr.Less K)
        (peers.map (fun p => ({ p := p, distance := K.xor target (K.ConvertPeerID p) } :
          peerDistance ID))), pd.distance = K.xor target (K.ConvertPeerID pd.p) := by
      intro pd hpd
      have hmem := (sortSort_perm _ _).subset hpd
      obtain ⟨p, -, rfl⟩ := List.mem_map.1 hmem
      rfl
    refine hsorted.imp_of_mem ?_
    intro a b ha hb hab
    rw [← hdist a ha, ← hdist b hb]
    exact hab

/-- A key space on natural numbers: a peer ID is read as a big-endian number, the distance
is the bitwise exclusive or, compared as a number. -/
def natKeySpace : KeySpace Nat where
  ConvertPeerID := fun p => p.foldl (fun acc b => acc * 256 + b.toNat) 0
  xor := fun a b => a ^^^ b
  less := fun a b => decide (a < b)

theorem sortClosestPeers_perm_sorted_witness :
    (∀ x y z : Nat, x ≤ y → y ≤ z → x ≤ z) ∧
      (∀ x y, natKeySpace.less x y = true → x ≤ y) ∧
      (∀ x y, natKeySpace.less x y = false → y ≤ x) ∧
      SortClosestPeers natKeySpace [[7], [4], [5], [1]] 5 = [[5], [4], [7], [1]] ∧
      (SortClosestPeers natKeySpace [[7], [4], [5], [1]] 5).Perm [[7], [4], [5], [1]] ∧
      (SortClosestPeers natKeySpace [[7], [4], [5], [1]] 5).Pairwise (fun p q =>
        natKeySpace.xor 5 (natKeySpace.ConvertPeerID p)
          ≤ natKeySpace.xor 5 (natKeySpace.ConvertPeerID q)) :=
  ⟨fun _ _ _ => Nat.le_trans,
    fun x y h => Nat.le_of_lt (by simpa [natKeySpace] using h),
    fun x y h => by simpa [natKeySpace] using h,
    by decide,
    sortClosestPeers_perm_sorted natKeySpace (fun a b => a ≤ b) (fun _ _ _ => Nat.le_trans)
      (fun x y h => Nat.le_of_lt (by simpa [natKeySpace] using h))
      (fun x y h => by simpa [natKeySpace] using h) [[7], [4], [5], [1]] 5⟩

/-! ## Provider sets: the list and the map -/

theorem GoMap.mem_keys_iff {κ ν : Type} [DecidableEq κ] (m : GoMap κ ν) (k : κ) :
    k ∈ m.entries.map Prod.fst ↔ m.get? k ≠ none := by
  rw [← not_iff_not, not_not, ← GoMap.find?_none_iff]
  unfold GoMap.get?
  simp

/-- The provider sets that `run` can hold: `newProviderSet()`, then any sequence of `Add`
calls and sweeps, each with any readings of the clock. -/
inductive providerSet.Reachable : providerSet → Prop
  | new : providerSet.Reachable newProviderSet
  | add (ps : providerSet) (now : Time) (p : PeerID) :
      providerSet.Reachable ps → providerSet.Reachable (ps.Add now p)
  | sweep (ps : providerSet) (now : PeerID → Time) :
      providerSet.Reachable ps → providerSet.Reachable (ps.sweep now)

theorem providerSet.sweep_set_get? (now : PeerID → Time) (provs : providerSet) (p : PeerID) :
    (provs.sweep now).set.get? p ≠ none ↔
      ∃ t, provs.set.get? p = some t ∧ sweepExpired now (p, t) = false := by
  unfold providerSet.sweep
  simp only [sweepLoop_get?]
  cases hg : provs.set.get? p with
  | none => simp [any_expired_of_absent now provs.set p hg]
  | some t =>
    rw [any_expired_of_get? now provs.set p t hg]
    cases he : sweepExpired now (p, t) <;> simp [he]

theorem providerSet.sweep_nodup (now : PeerID → Time) (provs : providerSet) :
    (provs.sweep now).providers.Nodup := by
  unfold providerSet.sweep
  simp only [sweepLoop_filtered, List.nil_append]
  exact provs.set.nodup.sublist ((List.filter_sublist provs.set.entries).map Prod.fst)

theorem providerSet.add_present (ps : providerSet) (now : Time) (p : PeerID)
    (h : ps.set.get? p ≠ none) :
    (ps.Add now p).providers = ps.providers ∧
      (ps.Add now p).set.get? p = some now ∧
      (∀ q, q ≠ p → (ps.Add now p).set.get? q = ps.set.get? q) := by
  unfold providerSet.Add
  cases hg : ps.set.get? p with
  | none => exact absurd hg h
  | some t =>
    exact ⟨rfl, GoMap.get?_set_self _ _ _, fun q hq => GoMap.get?_set_ne _ _ _ _ hq⟩

theorem providerSet.reachable_mem (ps : providerSet) (h : ps.Reachable) :
    ps.providers.Nodup ∧ ∀ p, p ∈ ps.providers ↔ ps.set.get? p ≠ none := by
  induction h with
  | new => exact ⟨List.nodup_nil, fun p => by simp [newProviderSet, GoMap.get?, GoMap.empty]⟩
  | add ps now p _ ih =>
    obtain ⟨hnd, hmem⟩ := ih
    cases hg : ps.set.get? p with
    | some t =>
      have hpres : ps.set.get? p ≠ none := by rw [hg]; simp
      obtain ⟨hp, hself, hother⟩ := providerSet.add_present ps now p hpres
      refine ⟨by rw [hp]; exact hnd, ?_⟩
      intro q
      rw [hp]
      by_cases hq : q = p
      · subst hq
        rw [hself]
        simp [(hmem q).2 hpres]
      · rw [hother q hq]
        exact hmem q
    | none =>
      have hp : (ps.Add now p).providers = ps.providers ++ [p] := by
        simp [providerSet.Add, hg]
      have hset : (ps.Add now p).set = ps.set.set p now := rfl
      have hnot : p ∉ ps.providers := fun hin => (hmem p).1 hin hg
      refine ⟨?_, ?_⟩
      · rw [hp]
        exact List.Nodup.append hnd (List.nodup_singleton p) (by simpa using hnot)
      · intro q
        rw [hp, hset]
        by_cases hq : q = p
        · subst hq
          simp [GoMap.get?_set_self]
        · rw [GoMap.get?_set_ne _ _ _ _ hq, List.mem_append, ← hmem q]
          simp [hq]
  | sweep ps now _ _ =>
    refine ⟨providerSet.sweep_nodup now ps, ?_⟩
    intro p
    rw [mem_sweep_providers, providerSet.sweep_set_get?]

/-- C27. Every provider set reachable from `newProviderSet()` by `Add` calls and sweeps has
a providers list without repetition whose elements are exactly the keys of the timestamp
map (the list is a permutation of the keys); and `Add` of a peer that is present leaves the
list as it is, sets the timestamp of that peer to the current time and changes no other
timestamp. -/
theorem providerSet.reachable_invariant (ps : providerSet) (h : ps.Reachable) :
    ps.providers.Nodup ∧
      (∀ p, p ∈ ps.providers ↔ ps.set.get? p ≠ none) ∧
      ps.providers.Perm (ps.set.entries.map Prod.fst) ∧
      (∀ (now : Time) (p : PeerID), p ∈ ps.providers →
        (ps.Add now p).providers = ps.providers ∧
          (ps.Add now p).set.get? p = some now ∧
          (∀ q, q ≠ p → (ps.Add now p).set.get? q = ps.set.get? q)) := by
  obtain ⟨hnd, hmem⟩ := providerSet.reachable_mem ps h
  refine ⟨hnd, hmem, ?_, ?_⟩
  · rw [List.perm_ext_iff_of_nodup hnd ps.set.nodup]
    intro p
    rw [hmem p, GoMap.mem_keys_iff]
  · intro now p hp
    exact providerSet.add_present ps now p ((hmem p).1 hp)

/-- A provider set built by three `Add` calls, the third for a peer that is present, and a
sweep at which the timestamp of the second peer, but not the refreshed one of the first,
is more than 24 hours old. -/
def sweptProvs : providerSet :=
  (((newProviderSet.Add 0 [1]).Add 5 [2]).Add 7 [1]).sweep (fun _ => Hour * 24 + 6)

theorem providerSet.reachable_invariant_witness :
    sweptProvs.Reachable ∧
      (((newProviderSet.Add 0 [1]).Add 5 [2]).Add 7 [1]).providers = [[1], [2]] ∧
      sweptProvs.providers = [[1]] ∧
      sweptProvs.providers.Nodup ∧
      sweptProvs.providers.Perm (sweptProvs.set.entries.map Prod.fst) :=
  ⟨.sweep _ _ (.add _ _ _ (.add _ _ _ (.add _ _ _ .new))), by decide, by decide,
    (providerSet.reachable_invariant sweptProvs
      (.sweep _ _ (.add _ _ _ (.add _ _ _ (.add _ _ _ .new))))).1,
    (providerSet.reachable_invariant sweptProvs
      (.sweep _ _ (.add _ _ _ (.add _ _ _ (.add _ _ _ .new))))).2.2.1⟩

/-! ## GetLocal after NewProviderManager -/

/-- C28 at `NewProviderManager(ctx, local)` with the local peer ID `[9]`: once
`AddProvider(ctx, [1], [9])` has been processed, `GetProviders` lists the peer for the key
but `GetLocal()` is empty, because `pm.lpeer` was never set to `local`; and a key added with
the empty peer ID, which is not the local one, is listed by `GetLocal()`. -/
theorem newProviderManager_drops_local :
    ((ProviderManager.NewProviderManager [9]).runNewprovs 0 [1] [9]).runGetlocal = [] ∧
      ((ProviderManager.NewProviderManager [9]).runNewprovs 0 [1] [9]).runGetprovs [1]
        = [[9]] ∧
      (ProviderManager.NewProviderManager [9]).lpeer = [] ∧
      ((ProviderManager.NewProviderManager [9]).runNewprovs 0 [2] []).runGetlocal = [[2]] := by
  decide

/-! ## SendMessage for ADD_PROVIDER and PUT_VALUE -/

/-- The results of successive `sendMessage` calls, the first being the `i`-th call, made
for the remotes of the list in order. -/
def callResults (h : HostCalls) : Nat → List PeerID → List (Option Error)
  | _, [] => []
  | i, remote :: rest => sendMessage h i remote :: callResults h (i + 1) rest

theorem getLast?_cons_getD {α : Type} (a d : α) (xs : List α) :
    (a :: xs).getLast?.getD d = xs.getLast?.getD a := by
  cases xs with
  | nil => simp
  | cons b t =>
    rw [List.getLast?_cons_cons, List.getLast?_eq_getLast _ (List.cons_ne_nil b t)]
    rfl

theorem getLast?_cons_of_some {α : Type} (a b : α) (xs : List α)
    (h : xs.getLast? = some b) : (a :: xs).getLast? = some b := by
  cases xs with
  | nil => simp at h
  | cons c t => rw [List.getLast?_cons_cons]; exact h

theorem callResults_length (h : HostCalls) (rems : List PeerID) :
    ∀ i, (callResults h i rems).length = rems.length := by
  induction rems with
  | nil => intro i; rfl
  | cons r rest ih => intro i; simp [callResults, ih]

theorem callResults_append (h : HostCalls) (a b : List PeerID) :
    ∀ i, callResults h i (a ++ b) = callResults h i a ++ callResults h (i + a.length) b := by
  induction a with
  | nil => intro i; simp [callResults]
  | cons r rest ih =>
    intro i
    have hstep : callResults h i (r :: rest ++ b) =
        sendMessage h i r :: callResults h (i + 1) (rest ++ b) := rfl
    rw [hstep, ih (i + 1), List.length_cons,
      show i + 1 + rest.length = i + (rest.length + 1) by omega]
    rfl

/-- The loop of `SendMessage` for a message that is replicated: the remotes tried are the
first ones of the list, the returned error is the result of the last call made, and the
loop ends at the success that brings the count to `replicationFactor`, or else tries every
remote. -/
theorem sendLoop_replicated (h : HostCalls) (m : Message)
    (hty : m.MsgType = .ADD_PROVIDER ∨ m.MsgType = .PUT_VALUE) :
    ∀ (rems : List PeerID) (i : Nat) (err : Option Error) (n : Nat) (contacted : List PeerID),
      n < replicationFactor →
      ∃ tried : List PeerID,
        tried <+: rems ∧
        (sendLoop h m rems i err n contacted).2 = contacted ++ tried ∧
        (sendLoop h m rems i err n contacted).1 = (callResults h i tried).getLast?.getD err ∧
        ((((callResults h i tried).filter Option.isNone).length + n = replicationFactor ∧
            (callResults h i tried).getLast? = some none) ∨
          (((callResults h i tried).filter Option.isNone).length + n < replicationFactor ∧
            tried = rems)) := by
  intro rems
  induction rems with
  | nil =>
    intro i err n contacted hn
    exact ⟨[], List.prefix_refl _, by simp [sendLoop], by simp [sendLoop, callResults],
      Or.inr ⟨by simpa [callResults] using hn, rfl⟩⟩
  | cons r rest ih =>
    intro i err n contacted hn
    cases hs : sendMessage h i r with
    | some e =>
      obtain ⟨tried, hpre, hcon, hres, hcount⟩ := ih (i + 1) (some e) n (contacted ++ [r]) hn
      have hstep : sendLoop h m (r :: rest) i err n contacted =
          sendLoop h m rest (i + 1) (some e) n (contacted ++ [r]) := by
        simp [sendLoop, hs]
      refine ⟨r :: tried, List.prefix_cons_inj r |>.2 hpre, ?_, ?_, ?_⟩
      · rw [hstep, hcon]; simp
      · rw [hstep, hres]
        simp only [callResults, hs]
        rw [getLast?_cons_getD]
      · simp only [callResults, hs]
        rcases hcount with ⟨hc, hl⟩ | ⟨hc, ht⟩
        · exact Or.inl ⟨by simpa using hc, getLast?_cons_of_some _ _ _ hl⟩
        · exact Or.inr ⟨by simpa using hc, by rw [ht]⟩
    | none =>
      by_cases hlt : n + 1 < replicationFactor
      · obtain ⟨tried, hpre, hcon, hres, hcount⟩ :=
          ih (i + 1) none (n + 1) (contacted ++ [r]) hlt
        have hstep : sendLoop h m (r :: rest) i err n contacted =
            sendLoop h m rest (i + 1) none (n + 1) (contacted ++ [r]) := by
          simp [sendLoop, hs, hty, hlt]
        refine ⟨r :: tried, List.prefix_cons_inj r |>.2 hpre, ?_, ?_, ?_⟩
        · rw [hstep, hcon]; simp
        · rw [hstep, hres]
          simp only [callResults, hs]
          rw [getLast?_cons_getD]
        · simp only [callResults, hs]
          rcases hcount with ⟨hc, hl⟩ | ⟨hc, ht⟩
          · refine Or.inl ⟨?_, getLast?_cons_of_some _ _ _ hl⟩
            simp only [List.filter_cons, Option.isNone_none, if_true, List.length_cons]
            omega
          · refine Or.inr ⟨?_, by rw [ht]⟩
            simp only [List.filter_cons, Option.isNone_none, if_true, List.length_cons]
            omega
      · have hstep : sendLoop h m (r :: rest) i err n contacted = (none, contacted ++ [r]) := by
          simp [sendLoop, hs, hlt]
        refine ⟨[r], by simp, by rw [hstep], ?_, ?_⟩
        · rw [hstep]
          simp [callResults, hs]
        · refine Or.inl ⟨?_, by simp [callResults, hs]⟩
          simp only [callResults, hs, List.filter_cons, Option.isNone_none, if_true,
            List.filter_nil, List.length_cons, List.length_nil]
          unfold replicationFactor at hn hlt ⊢
          omega

/-- C29. For an `ADD_PROVIDER` or `PUT_VALUE` message, `SendMessage` tries the first
remotes of the sorted list, and it returns nil exactly when at least 2 of the sends it
made succeeded, or the last send it made succeeded, or there are no remotes. In
particular, when exactly one of the remotes accepts the message and the last remote
fails with the error `e`, every remote is tried and `SendMessage` returns `e`. -/
theorem sendMessage_replicated (sortedByKey : List PeerID → Bytes → List PeerID)
    (h : HostCalls) (px : standard) (m : Message)
    (hty : m.MsgType = .ADD_PROVIDER ∨ m.MsgType = .PUT_VALUE) :
    (SendMessage sortedByKey h px m).2 <+: sortedByKey px.remoteIDs m.Key ∧
      ((SendMessage sortedByKey h px m).1 = none ↔
        (2 ≤ ((callResults h 0 (SendMessage sortedByKey h px m).2).filter
            Option.isNone).length ∨
          (callResults h 0 (SendMessage sortedByKey h px m).2).getLast? = some none ∨
          sortedByKey px.remoteIDs m.Key = [])) ∧
      (∀ e : Error,
        ((callResults h 0 (sortedByKey px.remoteIDs m.Key)).filter Option.isNone).length = 1 →
        (callResults h 0 (sortedByKey px.remoteIDs m.Key)).getLast? = some (some e) →
        SendMessage sortedByKey h px m = (some e, sortedByKey px.remoteIDs m.Key)) := by
  obtain ⟨tried, hpre, hcon, hres, hcount⟩ :=
    sendLoop_replicated h m hty (sortedByKey px.remoteIDs m.Key) 0 none 0 []
      (by unfold replicationFactor; omega)
  have h2 : (SendMessage sortedByKey h px m).2 = tried := by
    unfold SendMessage
    rw [hcon, List.nil_append]
  have h1 : (SendMessage sortedByKey h px m).1 = (callResults h 0 tried).getLast?.getD none := by
    unfold SendMessage
    exact hres
  unfold replicationFactor at hcount
  rw [h2, h1]
  refine ⟨hpre, ?_, ?_⟩
  · constructor
    · intro hnone
      cases hl : (callResults h 0 tried).getLast? with
      | none =>
        have hnil : tried = [] := by
          have := List.getLast?_eq_none_iff.1 hl
          have hlen := callResults_length h tried 0
          rw [this] at hlen
          exact List.length_eq_zero.1 hlen.symm
        rcases hcount with ⟨hc, hlast⟩ | ⟨-, ht⟩
        · rw [hl] at hlast
          exact absurd hlast (by simp)
        · exact Or.inr (Or.inr (by rw [← ht, hnil]))
      | some x =>
        rw [hl] at hnone
        have hx : x = none := by simpa using hnone
        exact Or.inr (Or.inl (by rw [hx]))
    · rintro (hge | hlast | hnil)
      · rcases hcount with ⟨-, hlast⟩ | ⟨hc, -⟩
        · rw [hlast]
          rfl
        · omega
      · rw [hlast]
        rfl
      · have : tried = [] := by
          rw [hnil] at hpre
          exact List.prefix_nil.1 hpre
        rw [this]
        rfl
  · intro e hone hlast
    have hall : tried = sortedByKey px.remoteIDs m.Key := by
      rcases hcount with ⟨hc, -⟩ | ⟨-, ht⟩
      · exfalso
        obtain ⟨s, hs⟩ := hpre
        rw [← hs, callResults_append, List.filter_append, List.length_append] at hone
        omega
      · exact ht
    have hpair : SendMessage sortedByKey h px m =
        ((SendMessage sortedByKey h px m).1, (SendMessage sortedByKey h px m).2) := rfl
    rw [hpair, h1, h2, hall, hlast]
    rfl

/-- A host with which only the calls for the remote `[1]` succeed. -/
def firstOnlyHost : HostCalls where
  Connect := fun _ remote => if remote = [1] then none else some "dial failed"
  NewStream := fun _ _ => none
  WriteMsg := fun _ _ => none

theorem sendMessage_replicated_witness :
    ((⟨.ADD_PROVIDER, [7]⟩ : Message).MsgType = .ADD_PROVIDER ∨
        (⟨.ADD_PROVIDER, [7]⟩ : Message).MsgType = .PUT_VALUE) ∧
      ((callResults firstOnlyHost 0 (keepOrder [[1], [2], [3]] [7])).filter
        Option.isNone).length = 1 ∧
      (callResults firstOnlyHost 0 (keepOrder [[1], [2], [3]] [7])).getLast?
        = some (some "dial failed") ∧
      SendMessage keepOrder firstOnlyHost ⟨[[1], [2], [3]]⟩ ⟨.ADD_PROVIDER, [7]⟩
        = (some "dial failed", keepOrder [[1], [2], [3]] [7]) :=
  ⟨Or.inl rfl, by decide, by decide,
    (sendMessage_replicated keepOrder firstOnlyHost ⟨[[1], [2], [3]]⟩ ⟨.ADD_PROVIDER, [7]⟩
      (Or.inl rfl)).2.2 "dial failed" (by decide) (by decide)⟩
